import Mathlib

/-!
# Verification of the dyng dynamic-graph layout library

Shallow embedding of the dyng C++ library (headers under `src/dyng/`) in Lean 4.
Machine `float` values are modelled as exact rationals (`ℚ`); the one float
operation without an exact rational counterpart, `std::sqrt`, is kept abstract
as a function parameter where it occurs.  Fallible C++ code (functions that
throw) is modelled with `Except`/`Option`.  Unsigned ids are modelled as `ℕ`.

The file is organised as: data model, static graph (graph.h), dynamic graph
(dynamic_graph.h), tolerance passes (foresighted_layout.h /
foresighted_parallel.h), border force (fruchterman_reingold.h), GAP
partitioning (foresighted_layout.h / live_set.h), interpolator
(interpolator.h), serialization (parse.h); then the theorems.
-/

deriving instance DecidableEq for Except

namespace Dyng

/-- Error kinds of the library (exceptions.h and std exceptions used by the
sources): `invalid_graph`, `std::out_of_range`, `std::invalid_argument`
(spec name `InvalidPhases`), parse errors. -/
inductive Err where
  | invalidGraph
  | outOfRange
  | invalidPhases
  | parseError
deriving DecidableEq

/-- coords.h: pair of float coordinates. -/
structure Coords where
  x : ℚ
  y : ℚ
deriving DecidableEq

instance : Inhabited Coords := ⟨⟨0, 0⟩⟩

/-- node.h: `class node`.  `m_coords` defaults to (0,0), `m_alpha` to 1.0,
both flags to false. -/
structure Node where
  id : ℕ
  pos : Coords := ⟨0, 0⟩
  alpha : ℚ := 1
  is_new : Bool := false
  is_old : Bool := false
deriving DecidableEq

instance : Inhabited Node := ⟨{ id := 0 }⟩

/-- edge.h: `class edge` (basic_edge).  The back-pointer `m_container` is an
internal cache for `node_one()`/`node_two()` and carries no state of its own;
it is not modelled. -/
structure Edge where
  id : ℕ
  one : ℕ
  two : ℕ
  alpha : ℚ := 1
  is_new : Bool := false
  is_old : Bool := false
deriving DecidableEq

instance : Inhabited Edge := ⟨{ id := 0, one := 0, two := 0 }⟩

/-- Association-list lookup, modelling `std::unordered_map::at` /
`find` (keys are kept unique by construction, mirroring the map). -/
def alookup {β : Type} (k : ℕ) : List (ℕ × β) → Option β
  | [] => none
  | (k', v) :: rest => if k' = k then some v else alookup k rest

/-- `std::unordered_map::emplace`: inserts only when the key is absent. -/
def aemplace {β : Type} (k : ℕ) (v : β) (l : List (ℕ × β)) : List (ℕ × β) :=
  match alookup k l with
  | some _ => l
  | none => l ++ [(k, v)]

/-- `std::unordered_map::erase` by key. -/
def aerase {β : Type} (k : ℕ) (l : List (ℕ × β)) : List (ℕ × β) :=
  l.filter (fun kv => kv.1 ≠ k)

/-- The per-node adjacency map `node_edges = unordered_map<node_id, edge_id>`. -/
abbrev NodeEdges := List (ℕ × ℕ)

/-- graph.h: `graph<node, edge>` (`graph_state`).  `m_nodes.vec` and
`m_edges.vec` are the element sequences; the `id → index` maps always mirror
the sequences (they are rebuilt after every bulk removal), so they are derived
from the lists here rather than stored.  `index` is the adjacency index
`m_index : node_id → (node_id → edge_id)`. -/
structure GraphState where
  nodes : List Node := []
  edges : List Edge := []
  index : List (ℕ × NodeEdges) := []
deriving DecidableEq

instance : Inhabited GraphState := ⟨{}⟩

/-- `graph::node_exists` (via `m_nodes.map.count`). -/
def node_exists (g : GraphState) (id : ℕ) : Bool :=
  g.nodes.any (fun n => n.id = id)

/-- `graph::edge_exists(edge_id)` (via `m_edges.map.count`). -/
def edge_exists (g : GraphState) (id : ℕ) : Bool :=
  g.edges.any (fun e => e.id = id)

/-- `graph::node_at` (throws `std::out_of_range` when absent). -/
def node_at (g : GraphState) (id : ℕ) : Option Node :=
  g.nodes.find? (fun n => n.id = id)

/-- `graph::push_node`: idempotent on id; appends the node and opens an empty
adjacency entry when new. -/
def push_node (g : GraphState) (n : Node) : GraphState :=
  if node_exists g n.id then g
  else { g with nodes := g.nodes ++ [n], index := g.index ++ [(n.id, [])] }

/-- `graph::push_edge`: idempotent on id; fails with
`invalid_graph("node not available")` when an endpoint has no adjacency entry;
otherwise records the edge in the adjacency index in both directions
(`emplace`, so an existing (same-pair) record is kept) and appends it.
(When only the second endpoint is missing, the C++ has already emplaced into
the first entry before throwing; the exception propagates out of every caller
in scope, discarding that state, so the error branch returns no state here.) -/
def push_edge (g : GraphState) (e : Edge) : Except Err GraphState :=
  if edge_exists g e.id then .ok g
  else
    match alookup e.one g.index, alookup e.two g.index with
    | some _, some _ =>
        let idx1 := g.index.map (fun kv =>
          if kv.1 = e.one then (kv.1, aemplace e.two e.id kv.2) else kv)
        let idx2 := idx1.map (fun kv =>
          if kv.1 = e.two then (kv.1, aemplace e.one e.id kv.2) else kv)
        .ok { g with edges := g.edges ++ [e], index := idx2 }
    | _, _ => .error .invalidGraph

/-- `graph::remove_edges_if`: for every removed edge, the side effect erases
the keys `edge.one_id()` and `edge.two_id()` from EVERY adjacency entry; then
the edge sequence is filtered and the `id → index` map rebuilt. -/
def remove_edges_if (g : GraphState) (p : Edge → Bool) : GraphState :=
  let idx := g.edges.foldl (fun idx e =>
    if p e then idx.map (fun kv => (kv.1, aerase e.two (aerase e.one kv.2)))
    else idx) g.index
  { g with edges := g.edges.filter (fun e => !(p e)), index := idx }

/-- `graph::remove_nodes_if`: each removed node first cascades to all incident
edges (via `remove_edges_if`), then its adjacency entry is erased; finally the
node sequence is filtered and the map rebuilt. -/
def remove_nodes_if (g : GraphState) (p : Node → Bool) : GraphState :=
  let g' := g.nodes.foldl (fun acc n =>
    if p n then
      let acc2 := remove_edges_if acc (fun e => e.one = n.id || e.two = n.id)
      { acc2 with index := acc2.index.filter (fun kv => kv.1 ≠ n.id) }
    else acc) g
  { g' with nodes := g.nodes.filter (fun n => !(p n)) }

/-- `graph::remove_edge`: `invalid_graph` when the edge does not exist. -/
def remove_edge (g : GraphState) (id : ℕ) : Except Err GraphState :=
  if !(edge_exists g id) then .error .invalidGraph
  else .ok (remove_edges_if g (fun e => e.id = id))

/-- `graph::remove_node`: `invalid_graph` when the node does not exist. -/
def remove_node (g : GraphState) (id : ℕ) : Except Err GraphState :=
  if !(node_exists g id) then .error .invalidGraph
  else .ok (remove_nodes_if g (fun n => n.id = id))

/-- `graph::clear_edges`: clears the edge sequence/map and empties every
adjacency entry (the entries themselves stay). -/
def clear_edges (g : GraphState) : GraphState :=
  { g with edges := [], index := g.index.map (fun kv => (kv.1, [])) }

/-- `graph::clear_nodes`: clears the node sequence/map and the whole adjacency
index (the edge sequence is not touched by this method). -/
def clear_nodes (g : GraphState) : GraphState :=
  { g with nodes := [], index := [] }

/-- `graph::edge_exists(node_id one, node_id two)` =
`edges_at_node(one).count(node_at(two).id())`; throws `std::out_of_range`
(modelled as `none`) when either node or the adjacency entry is missing. -/
def edge_exists_pair (g : GraphState) (one two : ℕ) : Option Bool := do
  let _ ← node_at g one
  let n2 ← node_at g two
  let m ← alookup one g.index
  pure (m.any (fun kv => kv.1 = n2.id))

/-! ## dynamic_graph.h -/

/-- The queued modifications (`m_modifications`): the source stores boxed
callables; each callable is one of the four mutations enqueued by
`add_node` / `add_edge` / `remove_node` / `remove_edge`, reified here as a sum
type applied in `apply_modifications`. -/
inductive Op where
  | pushNode (id : ℕ)
  | pushEdge (id one two : ℕ)
  | removeNode (id : ℕ)
  | removeEdge (id : ℕ)
deriving DecidableEq

/-- Application of one queued modification to a state (the lambda bodies in
`dynamic_graph::add_node` etc.). -/
def apply_op (g : GraphState) : Op → Except Err GraphState
  | .pushNode id => .ok (push_node g { id := id })
  | .pushEdge id one two => push_edge g { id := id, one := one, two := two }
  | .removeNode id => remove_node g id
  | .removeEdge id => remove_edge g id

/-- `dynamic_graph::apply_modifications`: each step starts from a copy of the
previous keyframe (empty for step 0) and applies that step's operations in
insertion order. -/
def apply_modifications (log : List (List Op)) : Except Err (List GraphState) :=
  log.foldlM (fun states ops => do
    let base := states.getLastD {}
    let st ← ops.foldlM apply_op base
    pure (states ++ [st])) []

/-- Flag assignment for one state, within `dynamic_graph::set_bool_values`:
`is_old[t] = (t < size−1 ∧ absent in t+1)`, `is_new[t] = (t > 0 ∧ absent in
t−1)`.  Flags of neighbors are being rewritten in place in the C++ loop, but
only id membership of the neighbors is read, which flags do not affect. -/
def flag_state (states : List GraphState) (t : ℕ) : GraphState :=
  let st := states.getD t {}
  { st with
    nodes := st.nodes.map (fun n =>
      { n with
        is_old := decide (t < states.length - 1) &&
          !(node_exists (states.getD (t + 1) {}) n.id)
        is_new := decide (0 < t) &&
          !(node_exists (states.getD (t - 1) {}) n.id) })
    edges := st.edges.map (fun e =>
      { e with
        is_old := decide (t < states.length - 1) &&
          !(edge_exists (states.getD (t + 1) {}) e.id)
        is_new := decide (0 < t) &&
          !(edge_exists (states.getD (t - 1) {}) e.id) }) }

/-- `dynamic_graph::set_bool_values`. -/
def set_bool_values (states : List GraphState) : List GraphState :=
  (List.range states.length).map (flag_state states)

/-- `dynamic_graph::build()`: apply the queued modifications, then compute the
`is_new` / `is_old` flags.  (The log clearing has no observable effect on the
produced states.) -/
def buildDG (log : List (List Op)) : Except Err (List GraphState) := do
  let states ← apply_modifications log
  pure (set_bool_values states)

/-- `dynamic_graph::build(std::vector<graph_state>)`: adopts the given states
and recomputes the flags (`recalculate_ids` only touches the id counters, not
the states). -/
def build_from (states : List GraphState) : List GraphState :=
  set_bool_values states

/-! ## foresighted_layout.h / foresighted_parallel.h: the tolerance passes

Both `foresighted_layout::tolerance` and the parallel override are templated
over `StaticLayout`; the pass only invokes `m_static_layout.iteration(copy,
width, height, temp)` and `relative_unit(width, height)`.  The environment
below carries those two, with the canvas `(width, height)` fixed, plus the
`m_relative_distance` switch and the abstract float `sqrt` routine used inside
`distance`. -/

structure Cooling where
  iterations : ℕ
  start_temperature : ℚ
  anneal : ℚ → ℚ

structure LayoutEnv where
  /-- `m_static_layout.iteration(g, width, height, temp)` at the fixed canvas. -/
  iter : GraphState → ℚ → GraphState
  /-- `m_static_layout.relative_unit(width, height)` at the fixed canvas. -/
  relative_unit : ℚ
  /-- `m_relative_distance` (default true). -/
  relative : Bool
  /-- models `std::sqrt` on floats (kept abstract; exact value irrelevant to
  the control flow proved about). -/
  sqrtQ : ℚ → ℚ

/-- Number of nodes of `one` that also exist in `two` (the `count` accumulated
in `foresighted_layout::distance`). -/
def shared_count (one two : GraphState) : ℕ :=
  (one.nodes.filter (fun n => node_exists two n.id)).length

/-- The accumulated sum in `foresighted_layout::distance`: Euclidean distances
between positions of nodes present in both states. -/
def dist_sum (env : LayoutEnv) (one two : GraphState) : ℚ :=
  one.nodes.foldl (fun acc n =>
    match node_at two n.id with
    | some other =>
        acc + env.sqrtQ ((n.pos.x - other.pos.x) * (n.pos.x - other.pos.x)
          + (n.pos.y - other.pos.y) * (n.pos.y - other.pos.y))
    | none => acc) 0

/-- `distance(a, b) < tol` as computed by the float code.  In relative mode
the sum is divided by the shared-node count; with no shared nodes the C++
computes `0.0f/0.0f = NaN` and `NaN < tol` is false, modelled by the explicit
zero-count branch. -/
def dist_lt (env : LayoutEnv) (one two : GraphState) (tol : ℚ) : Bool :=
  if env.relative then
    if shared_count one two = 0 then false
    else decide (dist_sum env one two / (shared_count one two : ℚ) < tol)
  else decide (dist_sum env one two < tol)

/-- `foresighted_layout::max_nodes`: maximum node count across the states. -/
def max_nodes (states : List GraphState) : ℕ :=
  states.foldl (fun m st => max m st.nodes.length) 0

/-- The effective tolerance bound: in absolute-distance mode
`tolerance_value *= relative_unit(w,h) * max_nodes(states)` (computed once,
before the rounds). -/
def tol_abs (env : LayoutEnv) (tol : ℚ) (states : List GraphState) : ℚ :=
  if env.relative then tol else tol * env.relative_unit * (max_nodes states : ℚ)

/-- The body of the inner loop of `foresighted_layout::tolerance` for one
state index `s`: iterate a copy of `states[s]` and accept it when it stays
within tolerance of both neighbors. -/
def tol_step (env : LayoutEnv) (tolv temp : ℚ) (states : List GraphState)
    (s : ℕ) : List GraphState :=
  let copy := env.iter (states.getD s {}) temp
  if ((s == 0) || dist_lt env copy (states.getD (s - 1) {}) tolv)
      && (decide (states.length - 1 ≤ s) || dist_lt env copy (states.getD (s + 1) {}) tolv)
  then states.set s copy else states

/-- One full iteration of the sequential tolerance loop (`for s in 0 ..
states.size()`). -/
def tol_pass (env : LayoutEnv) (tolv temp : ℚ) (states : List GraphState) :
    List GraphState :=
  (List.range states.length).foldl (tol_step env tolv temp) states

/-- The round loop of `foresighted_layout::tolerance`, annealing the
temperature after each full iteration. -/
def seq_rounds (env : LayoutEnv) (anneal : ℚ → ℚ) (tolv : ℚ) : ℕ →
    List GraphState → ℚ → List GraphState
  | 0, states, _ => states
  | n + 1, states, temp =>
      seq_rounds env anneal tolv n (tol_pass env tolv temp states) (anneal temp)

/-- `foresighted_layout::tolerance` (sequential). -/
def seq_tolerance (env : LayoutEnv) (c : Cooling) (tol : ℚ)
    (states : List GraphState) : List GraphState :=
  seq_rounds env c.anneal (tol_abs env tol states) c.iterations states c.start_temperature

/-! The parallel pass (`parallel_foresighted_layout::tolerance`).  Within a
round, each index is written by exactly one worker, the per-index work of
steps 1–2 is separated from thread 0's scan by barriers in both directions,
and the scan reads only already-rewritten `apply` slots; so a round has a
unique deterministic outcome, transcribed below as whole-vector operations. -/

structure ParSt where
  sts : List GraphState
  cps : List GraphState
  ap : List Bool
  temp : ℚ

/-- Step 1 of a round: for every index, `apply[i] ? (states[i] = copies[i]) :
(copies[i] = states[i])`.  Afterwards `states` and `copies` agree, both equal
to this reconciled vector. -/
def reconcile (ap : List Bool) (sts cps : List GraphState) : List GraphState :=
  (List.range sts.length).map (fun i =>
    if ap.getD i false then cps.getD i {} else sts.getD i {})

/-- One step of thread 0's scan at index `i`. -/
def scan_step (env : LayoutEnv) (tolv : ℚ) (sts cps : List GraphState)
    (ap : List Bool) (i : ℕ) : List Bool :=
  ap.set i
    (((i == 0) || dist_lt env (cps.getD i {})
        (if ap.getD (i - 1) false then cps.getD (i - 1) {} else sts.getD (i - 1) {}) tolv)
      && (decide (sts.length - 1 ≤ i)
          || dist_lt env (cps.getD i {}) (sts.getD (i + 1) {}) tolv))

/-- Thread 0's sequential scan (between the two barriers): `apply[i]` is set
iff the iterated copy is within tolerance of `get(i−1)` (which reflects the
decisions already made in this scan) and of `states[i+1]`.  The C++ rewrites
the `apply` array in place but reads only slots `< i`, already rewritten, so
starting from all-false is equivalent. -/
def par_scan (env : LayoutEnv) (tolv : ℚ) (sts cps : List GraphState) : List Bool :=
  (List.range sts.length).foldl (scan_step env tolv sts cps)
    (List.replicate sts.length false)

/-- One round of the parallel pass: reconcile, iterate every copy, scan,
anneal. -/
def par_round (env : LayoutEnv) (anneal : ℚ → ℚ) (tolv : ℚ) (p : ParSt) : ParSt :=
  let rc := reconcile p.ap p.sts p.cps
  let cps2 := rc.map (fun g => env.iter g p.temp)
  { sts := rc, cps := cps2, ap := par_scan env tolv rc cps2, temp := anneal p.temp }

def par_rounds (env : LayoutEnv) (anneal : ℚ → ℚ) (tolv : ℚ) : ℕ → ParSt → ParSt
  | 0, p => p
  | n + 1, p => par_rounds env anneal tolv n (par_round env anneal tolv p)

/-- `parallel_foresighted_layout::tolerance`: `copies` starts as a copy of
`states`, `apply` all-false; after the last round the authoritative `states`
vector is the result (the final round's `apply` decisions are never
reconciled back). -/
def par_tolerance (env : LayoutEnv) (c : Cooling) (tol : ℚ)
    (states : List GraphState) : List GraphState :=
  (par_rounds env c.anneal (tol_abs env tol states) c.iterations
    { sts := states, cps := states, ap := List.replicate states.length false,
      temp := c.start_temperature }).sts

/-! ### Characterization of one sequential tolerance iteration -/

/-- The first `k` inner steps of one iteration of the sequential loop. -/
def tol_fold (env : LayoutEnv) (tolv temp : ℚ) (states : List GraphState)
    (k : ℕ) : List GraphState :=
  (List.range k).foldl (tol_step env tolv temp) states

/-! ### The acceptance pattern, and sequential/parallel agreement -/

/-- The acceptance pattern of one tolerance iteration on incoming states `S`
at temperature `temp`: whether index `i`'s iterated copy is accepted, with the
left neighbor taken as already updated by this iteration's decision for
`i − 1` and the right neighbor not yet updated. -/
def accept (env : LayoutEnv) (tolv temp : ℚ) (S : List GraphState) : ℕ → Bool
  | 0 =>
      decide (S.length - 1 ≤ 0) ||
        dist_lt env (env.iter (S.getD 0 {}) temp) (S.getD 1 {}) tolv
  | j + 1 =>
      let copy := env.iter (S.getD (j + 1) {}) temp
      dist_lt env copy
          (if accept env tolv temp S j then env.iter (S.getD j {}) temp
           else S.getD j {}) tolv
        && (decide (S.length - 1 ≤ j + 1) || dist_lt env copy (S.getD (j + 2) {}) tolv)

/-- The first `k` steps of thread 0's scan. -/
def scan_fold (env : LayoutEnv) (tolv : ℚ) (sts cps : List GraphState) (k : ℕ) :
    List Bool :=
  (List.range k).foldl (scan_step env tolv sts cps)
    (List.replicate sts.length false)

/-! ## fruchterman_reingold.h: the border force -/

/-- `fruchterman_reingold::border_displacement(float k, float coord, float
size)`, with `m_border_force` passed explicitly.  `SmallOffset = 0.001f`. -/
def border_displacement (bf k coord size : ℚ) : ℚ :=
  let displace := fun (c s : ℚ) => (k * k * bf) / (|s * (1/2) - c| + |s * (1/1000)|)
  displace coord (-size) - displace coord size

/-- `fruchterman_reingold::reset_and_border` for one node: the displacement
vector is initialized to `border_displacement(k, width, pos.x)` and
`border_displacement(k, height, pos.y)` — note the call passes the canvas
dimension as `coord` and the node coordinate as `size`. -/
def reset_and_border (bf k width height : ℚ) (pos : Coords) : Coords :=
  ⟨border_displacement bf k width pos.x, border_displacement bf k height pos.y⟩

/-- The border force as the specification states it: the strength along an
axis for a node at coordinate `c` against the border at `±size/2` is
`border_force · k² / (|size/2 − c| + |size · small_offset|)`, summed (with
opposing signs) for both borders of the axis. -/
def border_force_spec (bf k size c : ℚ) : ℚ :=
  (bf * k * k) / (|(-(size * (1/2))) - c| + |size * (1/1000)|)
    - (bf * k * k) / (|size * (1/2) - c| + |size * (1/1000)|)

/-! ## live_set.h and the GAP node partitioning (foresighted_layout.h)

`detail::live_set` keeps a vector of time points; every producer adds times in
strictly increasing order, so the vector is sorted and `std::set_intersection`
/ `std::set_union` are the classic sorted merges below. -/

/-- `live_set::intersection` (`std::set_intersection` on sorted ranges). -/
def interLS : List ℕ → List ℕ → List ℕ
  | [], _ => []
  | _ :: _, [] => []
  | a :: as, b :: bs =>
      if a < b then interLS as (b :: bs)
      else if b < a then interLS (a :: as) bs
      else a :: interLS as bs
termination_by a b => a.length + b.length

/-- `live_set::setunion` (`std::set_union` on sorted ranges), used by
`live_set::join` / `add_live_time`. -/
def unionLS : List ℕ → List ℕ → List ℕ
  | [], b => b
  | a :: as, [] => a :: as
  | a :: as, b :: bs =>
      if a < b then a :: unionLS as (b :: bs)
      else if b < a then b :: unionLS (a :: as) bs
      else a :: unionLS as bs
termination_by a b => a.length + b.length

/-- `foresighted_layout::node_live_times` for one id: the (ascending) list of
state indices in which the node exists — each `t` is appended exactly when
`states[t]` contains the id, in increasing `t` order. -/
def node_live (states : List GraphState) (id : ℕ) : List ℕ :=
  (List.range states.length).filter (fun t => node_exists (states.getD t {}) id)

/-- Node ids of `foresighted_layout::calculate_supergraph`, in first-occurrence
order (`push_node` is idempotent on id). -/
def super_ids (states : List GraphState) : List ℕ :=
  states.foldl (fun acc st =>
    st.nodes.foldl (fun a n => if a.contains n.id then a else a ++ [n.id]) acc) []

/-- A node of the GAP partition graph (`detail::node_partition`): its id and
accumulated live set. -/
structure PartNode where
  pid : ℕ
  live : List ℕ
deriving DecidableEq

/-- The node side of `detail::mapped_graph` as built by `calculate_gap`: the
partition nodes and the alias table `m_node_map`. -/
structure Gap where
  parts : List PartNode := []
  amap : List (ℕ × ℕ) := []
deriving DecidableEq

/-- The partition scan inside `calculate_gap`: find the first partition node
whose live set is disjoint from `live`; extend it (`add_live_time`) and report
its id, or append a fresh partition node carrying `live`. -/
def gap_insert (id : ℕ) (live : List ℕ) : List PartNode → List PartNode × Option ℕ
  | [] => ([⟨id, live⟩], none)
  | p :: ps =>
      if interLS p.live live = [] then (⟨p.pid, unionLS p.live live⟩ :: ps, some p.pid)
      else
        let r := gap_insert id live ps
        (p :: r.1, r.2)

/-- Processing of one supergraph node in `calculate_gap`: alias it to the
extended partition when one matched, otherwise it becomes its own partition
representative. -/
def gap_step (g : Gap) (x : ℕ × List ℕ) : Gap :=
  let r := gap_insert x.1 x.2 g.parts
  match r.2 with
  | some pid => { parts := r.1, amap := g.amap ++ [(x.1, pid)] }
  | none => { parts := r.1, amap := g.amap }

/-- The node-partitioning loop of `foresighted_layout::calculate_gap`
(supergraph nodes processed in order, each with its live set).  The subsequent
edge-partitioning loop does not touch the node partitions. -/
def calculate_gap (xs : List (ℕ × List ℕ)) : Gap :=
  xs.foldl gap_step {}

/-- The GAP built for a keyframe sequence. -/
def gap_of (states : List GraphState) : Gap :=
  calculate_gap ((super_ids states).map (fun i => (i, node_live states i)))

/-- `mapped_graph::node_at` resolution: the partition node a supergraph node
is assigned to — through the alias table, or itself when it is a
representative present in the partition graph. -/
def assigned_to (g : Gap) (id : ℕ) : Option ℕ :=
  match alookup id g.amap with
  | some t => some t
  | none => if g.parts.any (fun p => p.pid = id) then some id else none

/-! ## interpolator.h -/

inductive Phase where
  | idle
  | appear
  | disappear
  | morph
  | simult
deriving DecidableEq

/-- The per-phase-type durations (`m_idle_time` … `m_simultaneous_time`) with
their defaults. -/
structure Durations where
  idle : ℚ := 1/2
  appear : ℚ := 1/4
  disappear : ℚ := 1/4
  morph : ℚ := 1
  simult : ℚ := 3/2
deriving DecidableEq

/-- `interpolator::duration(phase)`. -/
def duration (d : Durations) : Phase → ℚ
  | .idle => d.idle
  | .appear => d.appear
  | .disappear => d.disappear
  | .morph => d.morph
  | .simult => d.simult

/-- `interpolator::set_phases` on the currently stored sequence `cur`:
validates the counts and either stores the new sequence or throws
`std::invalid_argument` (spec kind `InvalidPhases`), leaving the stored
sequence unchanged. -/
def set_phases (cur ps : List Phase) : List Phase × Option Err :=
  let a := ps.count .appear
  let d := ps.count .disappear
  let m := ps.count .morph
  let s := ps.count .simult
  if s > 1 ∨ a > 1 ∨ d > 1 ∨ m > 1 then (cur, some .invalidPhases)
  else if (s = 0 ∧ ¬(a = 1 ∧ d = 1 ∧ m = 1)) ∨ (s = 1 ∧ (a > 0 ∨ d > 0 ∨ m > 0)) then
    (cur, some .invalidPhases)
  else (ps, none)

/-- `interpolator::transition_duration`. -/
def transition_duration (d : Durations) (phases : List Phase) : ℚ :=
  phases.foldl (fun acc p => acc + duration d p) 0

/-- `interpolator::length`: `(dgraph.states().size() - 1) *
transition_duration()`.  `size()` is a `size_t`; on an empty states vector the
subtraction wraps around to `2^64 − 1` before the float multiply. -/
def lengthQ (d : Durations) (phases : List Phase) (states : List GraphState) : ℚ :=
  (if states.length = 0 then ((2 ^ 64 - 1 : ℕ) : ℚ) else ((states.length - 1 : ℕ) : ℚ))
    * transition_duration d phases

/-- The `frame_state` record accumulated while walking the phases. -/
structure FrameState where
  interpolation : ℚ := 0
  alpha : ℚ := 0
  adding : Bool := false
  added : Bool := false
  deleting : Bool := false
  deleted : Bool := false
deriving DecidableEq

/-- `interpolator::perform_phase`. -/
def perform_phase (d : Durations) (p : Phase) (time : ℚ) (a : FrameState) :
    FrameState :=
  let dur := duration d p
  match p with
  | .idle => a
  | .appear =>
      { a with adding := decide (time < dur), alpha := time / dur,
               added := a.added || decide (dur ≤ time) }
  | .disappear =>
      { a with deleting := decide (time < dur), alpha := time / dur,
               deleted := a.deleted || decide (dur ≤ time) }
  | .morph => { a with interpolation := time / dur }
  | .simult =>
      { a with adding := decide (time < dur), deleting := decide (time < dur),
               alpha := time / dur, interpolation := time / dur,
               added := a.added || decide (dur ≤ time),
               deleted := a.deleted || decide (dur ≤ time) }

/-- The combination of `interpolator::get_current_phase` and the two
`perform_phase` loops in `operator()`: every phase wholly before `value` is
applied with its full duration, the phase containing `value` with the local
remainder; when `value` overruns the whole sequence the C++ throws
(`"time overflow phases"`). -/
def phase_walk (d : Durations) : List Phase → ℚ → FrameState → Option FrameState
  | [], _, _ => none
  | p :: ps, rem, a =>
      if rem < duration d p then some (perform_phase d p rem a)
      else phase_walk d ps (rem - duration d p) (perform_phase d p (duration d p) a)

/-- Bool-to-float conversion used in the alpha formula. -/
def bq (b : Bool) : ℚ := if b then 1 else 0

/-- `interpolator::calc_alpha`, applied to an element's flags and current
alpha; returns the new alpha. -/
def calc_alpha (is_n is_o : Bool) (alpha0 : ℚ) (a : FrameState) : ℚ :=
  if !is_o && !is_n then alpha0
  else
    let a1 := if is_n && !a.added then 0 else alpha0
    let a2 := if is_o && a.deleted then 0 else a1
    let ape := is_n && a.adding && !a.added
    let dis := is_o && a.deleting
    if ape || dis then (bq (!ape) + a.alpha * bq ape) * (1 - a.alpha * bq dis)
    else a2

/-- `interpolator::lerp`. -/
def lerp (a b value : ℚ) : ℚ := a + value * (b - a)

/-- The frame-assembly part of `interpolator::operator()` once the animation
record is known: copy `states[i1]`, clear `is_new` everywhere, import the
`is_new` elements of `states[i2]` (with `is_old` cleared), then lerp node
positions toward `states[i2]` and assign alphas. -/
def assemble_frame (a : FrameState) (cur next : GraphState) :
    Except Err GraphState := do
  let cur1 : GraphState :=
    { cur with nodes := cur.nodes.map (fun n => { n with is_new := false }),
               edges := cur.edges.map (fun e => { e with is_new := false }) }
  let cur2 := next.nodes.foldl (fun g n =>
    if n.is_new then push_node g { n with is_old := false } else g) cur1
  let cur3 ← next.edges.foldlM (fun g e =>
    if e.is_new then push_edge g { e with is_old := false } else pure g) cur2
  let withPos : GraphState :=
    { cur3 with nodes := cur3.nodes.map (fun n =>
        match node_at next n.id with
        | some nx =>
            { n with pos := ⟨lerp n.pos.x nx.pos.x a.interpolation,
                             lerp n.pos.y nx.pos.y a.interpolation⟩ }
        | none => n) }
  pure { withPos with
    nodes := withPos.nodes.map (fun n =>
      { n with alpha := calc_alpha n.is_new n.is_old n.alpha a }),
    edges := withPos.edges.map (fun e =>
      { e with alpha := calc_alpha e.is_new e.is_old e.alpha a }) }

/-- `interpolator::operator()(dgraph, time)` (each `throw` exits the
function, hence the if/else chain). -/
def interpolate (d : Durations) (phases : List Phase) (states : List GraphState)
    (t : ℚ) : Except Err GraphState :=
  if t < 0 then .error .outOfRange
  else if t > lengthQ d phases states then .error .outOfRange
  else if states.isEmpty then .ok {}
  else
    let td := transition_duration d phases
    let i1 : ℕ := ⌊t / td⌋.toNat
    let i2 : ℕ := ⌈t / td⌉.toNat
    let value : ℚ := t - (i1 : ℚ) * td
    match phase_walk d phases value {} with
    | none => .error .outOfRange
    | some a =>
        let i1' := min i1 (states.length - 1)
        let i2' := min i2 (states.length - 1)
        assemble_frame a (states.getD i1' {}) (states.getD i2' {})

/-! ## parse.h: serialization and parsing

The text format is modelled at record level: the emitted stream is `{` then
one `[ … ]` block per state holding its node statements (`n ID X Y;`) followed
by its edge statements (`e ID ONE TWO;`), then `}`; whitespace/terminator
handling in `operator>>` accepts back everything `operator<<` emits, so the
character layer is content-free for round-tripping and the records below carry
exactly the data of the statements.  What is not content-free is the float
formatting: `operator<<(ostream, float)` writes with the default precision of
6 significant digits, modelled by `fmt6`; `std::stoi` / `std::stof` read the
decimal back. -/

/-- `⌊log₁₀ a⌋` for a positive rational. -/
def ilog10 (a : ℚ) : ℤ :=
  if 1 ≤ a then (Nat.log 10 ⌊a⌋.toNat : ℤ)
  else -((Nat.log 10 (⌈1 / a⌉.toNat - 1) : ℤ) + 1)

/-- The value printed for a float by `operator<<` at the default precision
(6 significant digits) and read back by `std::stof`: the input rounded to 6
significant decimal digits.  (The C++ rounds the underlying binary float and
breaks exact decimal ties to even; ties are immaterial to the uses below.) -/
def fmt6 (q : ℚ) : ℚ :=
  if q = 0 then 0
  else
    let a := |q|
    let e := ilog10 a
    let scale := (10 : ℚ) ^ (5 - e)
    let r := ((⌊a * scale + 1/2⌋ : ℤ) : ℚ) / scale
    if q < 0 then -r else r

/-- One `n ID X Y;` statement. -/
structure NodeRec where
  nid : ℕ
  x : ℚ
  y : ℚ
deriving DecidableEq

/-- One `e ID ONE TWO;` statement. -/
structure EdgeRec where
  eid : ℕ
  one : ℕ
  two : ℕ
deriving DecidableEq

/-- One `[ … ]` state block: node statements then edge statements, as
`operator<<(ostream, graph)` emits them. -/
structure StateRec where
  nodes : List NodeRec
  edges : List EdgeRec
deriving DecidableEq

/-- `operator<<` for one state: nodes then edges, ids exactly, positions at
output precision. -/
def serialize_state (st : GraphState) : StateRec :=
  { nodes := st.nodes.map (fun n => ⟨n.id, fmt6 n.pos.x, fmt6 n.pos.y⟩),
    edges := st.edges.map (fun e => ⟨e.id, e.one, e.two⟩) }

/-- `operator<<(ostream, dynamic_graph)`. -/
def serializeDG (states : List GraphState) : List StateRec :=
  states.map serialize_state

/-- `operator>>` for one state: each `n` statement builds a node (default
alpha and flags) and `push_node`s it; each `e` statement `push_edge`s (which
throws `invalid_graph` when an endpoint is missing). -/
def parse_state (r : StateRec) : Except Err GraphState := do
  let g1 := r.nodes.foldl (fun g nr =>
    push_node g { id := nr.nid, pos := ⟨nr.x, nr.y⟩ }) {}
  r.edges.foldlM (fun g er => push_edge g { id := er.eid, one := er.one, two := er.two }) g1

/-- `operator>>(istream, dynamic_graph)`: parse the state blocks, then
`dgraph.build(states)` — which recomputes the flags via `set_bool_values`
(`recalculate_ids` only rebuilds the id counters). -/
def parseDG (rs : List StateRec) : Except Err (List GraphState) := do
  let sts ← rs.mapM parse_state
  pure (set_bool_values sts)

/-- The observables the round-trip claim compares on a node. -/
def node_obs (n : Node) : ℕ × Coords × Bool × Bool :=
  (n.id, n.pos, n.is_new, n.is_old)

/-- The observables the round-trip claim compares on an edge. -/
def edge_obs (e : Edge) : ℕ × ℕ × ℕ × Bool × Bool :=
  (e.id, e.one, e.two, e.is_new, e.is_old)

/-- State equality in the sense of the round-trip claim: the same node and
edge ids in order, the same node positions, the same flags. -/
def state_obs (st : GraphState) : List (ℕ × Coords × Bool × Bool) × List (ℕ × ℕ × ℕ × Bool × Bool) :=
  (st.nodes.map node_obs, st.edges.map edge_obs)

/-! ## Concrete instances used by the theorems below -/

/-- A one-node keyframe. -/
def one_node_state : GraphState :=
  { nodes := [{ id := 0 }], edges := [], index := [(0, [])] }

/-- A layout environment whose `iteration` moves every node to `x = 1`
(a stand-in `StaticLayout` instantiation of the templated tolerance pass). -/
def move_env : LayoutEnv :=
  { iter := fun g _ => { g with nodes := g.nodes.map (fun n => { n with pos := ⟨1, n.pos.y⟩ }) }
    relative_unit := 17/25
    relative := true
    sqrtQ := id }

/-- One round, start temperature 1, identity annealing. -/
def one_round : Cooling := ⟨1, 1, fun t => t⟩

/-- The operation sequence of the adjacency-symmetry counterexample: three
nodes, edges 10 = (0,1) and 11 = (0,2), then remove edge 10. -/
def c3_graph : Except Err GraphState := do
  let g0 := push_node (push_node (push_node {} { id := 0 }) { id := 1 }) { id := 2 }
  let g1 ← push_edge g0 { id := 10, one := 0, two := 1 }
  let g2 ← push_edge g1 { id := 11, one := 0, two := 2 }
  remove_edge g2 10

/-- A two-state build: node 0 always present, node 1 and edge 0 only in the
middle state of three. -/
def c2_log : List (List Op) :=
  [[.pushNode 0], [.pushNode 1, .pushEdge 0 0 1], [.removeNode 1]]

/-- The flag-computation output on a successful build. -/
def c2_states : List GraphState := (buildDG c2_log).toOption.getD []

/-- The default phased sequence (`interpolator(phased)` reordered as the spec
lists the phase types; any valid order works for the witness). -/
def c8_phases : List Phase := [Phase.idle, Phase.disappear, Phase.morph, Phase.appear]

/-- A single keyframe with one node (alpha at the default 1.0). -/
def c8_states : List GraphState :=
  [{ nodes := [{ id := 5 }], edges := [], index := [(5, [])] }]

/-- The frame the interpolator produces on `c8_states` at `t = 0`. -/
def c8_frame : GraphState := { nodes := [{ id := 5 }], edges := [], index := [(5, [])] }

/-- Two keyframes with disjoint one-node populations: node 5 lives only in
state 0, node 9 only in state 1, so the GAP merges them into one partition. -/
def c5_states : List GraphState :=
  [{ nodes := [{ id := 5 }], edges := [], index := [(5, [])] },
   { nodes := [{ id := 9 }], edges := [], index := [(9, [])] }]

/-- A built single keyframe whose node sits at x = 0.1234567: seven
significant digits, one more than the serializer's output precision. -/
def c9_base : List GraphState :=
  [{ nodes := [{ id := 7, pos := ⟨1234567/10000000, 0⟩ }], edges := [],
     index := [(7, [])] }]

/-- One keyframe with two nodes at the default origin joined by an edge; all
coordinates are exact at the output precision. -/
def c9w_base : List GraphState :=
  [{ nodes := [{ id := 1 }, { id := 2 }],
     edges := [{ id := 3, one := 1, two := 2 }],
     index := [(1, [(2, 3)]), (2, [(1, 3)])] }]

/-- Invariant of the GAP node-partitioning loop after processing the prefix
`done` of the supergraph nodes: partition live sets stay sorted, partition
ids are distinct processed ids, every alias key is a processed id, every
processed node is assigned to a partition node containing its live set, and
two processed nodes assigned to the same partition have disjoint live sets. -/
structure GapInv (done : List (ℕ × List ℕ)) (g : Gap) : Prop where
  sorted : ∀ p ∈ g.parts, p.live.Pairwise (· < ·)
  pids_nodup : (g.parts.map PartNode.pid).Nodup
  pids_sub : ∀ p ∈ g.parts, p.pid ∈ done.map Prod.fst
  keys_sub : ∀ kv ∈ g.amap, kv.1 ∈ done.map Prod.fst
  total : ∀ x ∈ done, ∃ p ∈ g.parts,
    assigned_to g x.1 = some p.pid ∧ ∀ t ∈ x.2, t ∈ p.live
  disj : done.Pairwise (fun x y => ∀ pid, assigned_to g x.1 = some pid →
    assigned_to g y.1 = some pid → ∀ t ∈ x.2, t ∉ y.2)

/-! ## Theorems -/

/-! ### The tolerance passes: characterization and sequential/parallel agreement -/

lemma tol_fold_succ (env : LayoutEnv) (tolv temp : ℚ) (states : List GraphState)
    (k : ℕ) :
    tol_fold env tolv temp states (k + 1) =
      tol_step env tolv temp (tol_fold env tolv temp states k) k := by
  unfold tol_fold
  rw [List.range_succ, List.foldl_append]
  rfl

lemma tol_step_length (env : LayoutEnv) (tolv temp : ℚ) (sts : List GraphState)
    (s : ℕ) : (tol_step env tolv temp sts s).length = sts.length := by
  unfold tol_step
  dsimp only
  split <;> simp [List.length_set]

lemma tol_fold_length (env : LayoutEnv) (tolv temp : ℚ) (states : List GraphState)
    (k : ℕ) : (tol_fold env tolv temp states k).length = states.length := by
  induction k with
  | zero => rfl
  | succ k ih => rw [tol_fold_succ, tol_step_length]; exact ih

lemma tol_step_getElem?_ne (env : LayoutEnv) (tolv temp : ℚ)
    (sts : List GraphState) (s j : ℕ) (h : j ≠ s) :
    (tol_step env tolv temp sts s)[j]? = sts[j]? := by
  unfold tol_step
  dsimp only
  split
  · rw [List.getElem?_set]
    simp [Ne.symm h]
  · rfl

lemma tol_fold_getElem?_ge (env : LayoutEnv) (tolv temp : ℚ)
    (states : List GraphState) (k j : ℕ) (h : k ≤ j) :
    (tol_fold env tolv temp states k)[j]? = states[j]? := by
  induction k with
  | zero => rfl
  | succ k ih =>
      rw [tol_fold_succ, tol_step_getElem?_ne]
      · exact ih (Nat.le_of_succ_le h)
      · omega

lemma tol_fold_getElem?_stable (env : LayoutEnv) (tolv temp : ℚ)
    (states : List GraphState) (k j : ℕ) (h : j < k) :
    (tol_fold env tolv temp states k)[j]? =
      (tol_fold env tolv temp states (j + 1))[j]? := by
  induction k with
  | zero => omega
  | succ k ih =>
      rcases Nat.lt_or_ge j k with hk | hk
      · rw [tol_fold_succ, tol_step_getElem?_ne _ _ _ _ _ _ (by omega)]
        exact ih hk
      · have : j = k := by omega
        subst this
        rfl

/-- Per-index characterization of one full iteration of the sequential
tolerance loop: index `s` receives the iterated copy of the incoming
`states[s]` exactly when the copy is within tolerance of the already-updated
left neighbor (read from the iteration's own output) and of the not-yet-updated
right neighbor (read from the incoming states); otherwise it keeps its
incoming value. -/
lemma tol_pass_char (env : LayoutEnv) (tolv temp : ℚ) (states : List GraphState)
    (s : ℕ) (hs : s < states.length) :
    (tol_pass env tolv temp states).getD s {} =
      (let copy := env.iter (states.getD s {}) temp
       if ((s == 0) || dist_lt env copy ((tol_pass env tolv temp states).getD (s - 1) {}) tolv)
          && (decide (states.length - 1 ≤ s) || dist_lt env copy (states.getD (s + 1) {}) tolv)
       then copy else states.getD s {}) := by
  have hpass : tol_pass env tolv temp states = tol_fold env tolv temp states states.length := rfl
  have hs' : (tol_pass env tolv temp states)[s]? = (tol_fold env tolv temp states (s + 1))[s]? := by
    rw [hpass]
    exact tol_fold_getElem?_stable env tolv temp states states.length s hs
  have hstep : tol_fold env tolv temp states (s + 1) =
      tol_step env tolv temp (tol_fold env tolv temp states s) s :=
    tol_fold_succ env tolv temp states s
  -- facts about the state before step s
  have hown : (tol_fold env tolv temp states s)[s]? = states[s]? :=
    tol_fold_getElem?_ge env tolv temp states s s le_rfl
  have hright : (tol_fold env tolv temp states s)[s + 1]? = states[s + 1]? :=
    tol_fold_getElem?_ge env tolv temp states s (s + 1) (Nat.le_succ s)
  have hleft : s ≠ 0 → (tol_fold env tolv temp states s).getD (s - 1) {} =
      (tol_pass env tolv temp states).getD (s - 1) {} := by
    intro h0
    rw [List.getD_eq_getElem?_getD, List.getD_eq_getElem?_getD, hpass,
      tol_fold_getElem?_stable env tolv temp states states.length (s - 1) (by omega),
      tol_fold_getElem?_stable env tolv temp states s (s - 1) (by omega)]
  have hlen : (tol_fold env tolv temp states s).length = states.length :=
    tol_fold_length env tolv temp states s
  have hgetD : (tol_fold env tolv temp states s).getD s {} = states.getD s {} := by
    rw [List.getD_eq_getElem?_getD, List.getD_eq_getElem?_getD, hown]
  have hgetD1 : (tol_fold env tolv temp states s).getD (s + 1) {} = states.getD (s + 1) {} := by
    rw [List.getD_eq_getElem?_getD, List.getD_eq_getElem?_getD, hright]
  rw [List.getD_eq_getElem?_getD, hs', hstep]
  unfold tol_step
  dsimp only
  rw [hlen, hgetD, hgetD1]
  by_cases h0 : s = 0
  · subst h0
    simp only [beq_self_eq_true, Bool.true_or]
    split
    · rw [List.getElem?_set]
      simp [hlen, hs]
    · rw [hown, List.getD_eq_getElem?_getD]
  · rw [hleft h0]
    split
    · rw [List.getElem?_set]
      simp [hlen, hs]
    · rw [hown, List.getD_eq_getElem?_getD]

/-- One sequential tolerance iteration realizes exactly the pattern `accept`:
index `i` ends as the iterated copy when `accept i`, else unchanged. -/
lemma tol_pass_accept (env : LayoutEnv) (tolv temp : ℚ) (S : List GraphState)
    (i : ℕ) (hi : i < S.length) :
    (tol_pass env tolv temp S).getD i {} =
      (if accept env tolv temp S i then env.iter (S.getD i {}) temp
       else S.getD i {}) := by
  induction i with
  | zero =>
      have h := tol_pass_char env tolv temp S 0 hi
      simpa [accept] using h
  | succ j ih =>
      have h := tol_pass_char env tolv temp S (j + 1) hi
      have hj : j < S.length := by omega
      rw [show (j + 1 - 1) = j from rfl, ih hj] at h
      simpa [accept] using h

lemma scan_step_length (env : LayoutEnv) (tolv : ℚ) (sts cps : List GraphState)
    (ap : List Bool) (i : ℕ) : (scan_step env tolv sts cps ap i).length = ap.length := by
  unfold scan_step
  simp [List.length_set]

lemma scan_step_getElem?_ne (env : LayoutEnv) (tolv : ℚ) (sts cps : List GraphState)
    (ap : List Bool) (i j : ℕ) (h : j ≠ i) :
    (scan_step env tolv sts cps ap i)[j]? = ap[j]? := by
  unfold scan_step
  rw [List.getElem?_set]
  simp [Ne.symm h]

lemma scan_fold_succ (env : LayoutEnv) (tolv : ℚ) (sts cps : List GraphState)
    (k : ℕ) :
    scan_fold env tolv sts cps (k + 1) =
      scan_step env tolv sts cps (scan_fold env tolv sts cps k) k := by
  unfold scan_fold
  rw [List.range_succ, List.foldl_append]
  rfl

lemma scan_fold_length (env : LayoutEnv) (tolv : ℚ) (sts cps : List GraphState)
    (k : ℕ) : (scan_fold env tolv sts cps k).length = sts.length := by
  induction k with
  | zero => simp [scan_fold]
  | succ k ih => rw [scan_fold_succ, scan_step_length]; exact ih

lemma scan_fold_getElem?_stable (env : LayoutEnv) (tolv : ℚ)
    (sts cps : List GraphState) (k j : ℕ) (h : j < k) :
    (scan_fold env tolv sts cps k)[j]? =
      (scan_fold env tolv sts cps (j + 1))[j]? := by
  induction k with
  | zero => omega
  | succ k ih =>
      rcases Nat.lt_or_ge j k with hk | hk
      · rw [scan_fold_succ, scan_step_getElem?_ne _ _ _ _ _ _ _ (by omega)]
        exact ih hk
      · have : j = k := by omega
        subst this
        rfl

/-- The scan of the parallel pass, run on states `S` and copies `S.map
(iter · temp)` (as produced by round step 2), computes exactly the sequential
acceptance pattern. -/
lemma par_scan_accept (env : LayoutEnv) (tolv temp : ℚ) (S : List GraphState)
    (i : ℕ) (hi : i < S.length) :
    (par_scan env tolv S (S.map (fun g => env.iter g temp))).getD i false =
      accept env tolv temp S i := by
  have hC : ∀ j, j < S.length →
      (S.map (fun g => env.iter g temp)).getD j {} = env.iter (S.getD j {}) temp := by
    intro j hj
    rw [List.getD_eq_getElem?_getD, List.getD_eq_getElem?_getD, List.getElem?_map,
      List.getElem?_eq_getElem hj]
    rfl
  have hpass : par_scan env tolv S (S.map (fun g => env.iter g temp)) =
      scan_fold env tolv S (S.map (fun g => env.iter g temp)) S.length := rfl
  induction i with
  | zero =>
      rw [List.getD_eq_getElem?_getD, hpass,
        scan_fold_getElem?_stable _ _ _ _ _ _ hi, scan_fold_succ]
      unfold scan_step
      rw [List.getElem?_set]
      simp only [if_pos rfl, scan_fold_length, hi, if_pos, hC 0 hi]
      simp [accept, List.length_map]
  | succ j ih =>
      have hj : j < S.length := by omega
      rw [List.getD_eq_getElem?_getD, hpass,
        scan_fold_getElem?_stable _ _ _ _ _ _ hi, scan_fold_succ]
      unfold scan_step
      rw [List.getElem?_set]
      simp only [if_pos rfl, scan_fold_length, hi, if_pos]
      have hprev' : (scan_fold env tolv S (S.map (fun g => env.iter g temp)) (j + 1)).getD j false =
          accept env tolv temp S j := by
        rw [List.getD_eq_getElem?_getD,
          ← scan_fold_getElem?_stable env tolv S (S.map (fun g => env.iter g temp)) S.length j hj,
          ← List.getD_eq_getElem?_getD, ← hpass]
        exact ih hj
      rw [show (j + 1 - 1) = j from rfl, hprev', hC (j + 1) hi, hC j hj]
      simp [accept, List.length_map]

/-- Reconciling against the scan's decisions yields exactly the sequential
iteration's result. -/
lemma reconcile_scan_eq_tol_pass (env : LayoutEnv) (tolv temp : ℚ)
    (S : List GraphState) :
    reconcile (par_scan env tolv S (S.map (fun g => env.iter g temp))) S
      (S.map (fun g => env.iter g temp)) = tol_pass env tolv temp S := by
  apply List.ext_getElem?
  intro n
  have hlenL : (reconcile (par_scan env tolv S (S.map (fun g => env.iter g temp))) S
      (S.map (fun g => env.iter g temp))).length = S.length := by
    simp [reconcile, List.length_map, List.length_range]
  have hlenR : (tol_pass env tolv temp S).length = S.length :=
    tol_fold_length env tolv temp S S.length
  by_cases hn : n < S.length
  · rw [show (reconcile (par_scan env tolv S (S.map (fun g => env.iter g temp))) S
        (S.map (fun g => env.iter g temp)))[n]? =
        some (if (par_scan env tolv S (S.map (fun g => env.iter g temp))).getD n false
          then (S.map (fun g => env.iter g temp)).getD n {} else S.getD n {}) from by
      unfold reconcile
      rw [List.getElem?_map, List.getElem?_range hn]
      rfl]
    rw [par_scan_accept env tolv temp S n hn]
    have hget : (tol_pass env tolv temp S)[n]? = some ((tol_pass env tolv temp S).getD n {}) := by
      rw [List.getD_eq_getElem?_getD, List.getElem?_eq_getElem (hlenR ▸ hn)]
      rfl
    rw [hget, tol_pass_accept env tolv temp S n hn]
    by_cases hacc : accept env tolv temp S n = true
    · rw [hacc]
      simp only [if_true]
      rw [List.getD_eq_getElem?_getD, List.getElem?_map, List.getElem?_eq_getElem hn]
      simp [List.getD_eq_getElem?_getD, List.getElem?_eq_getElem hn]
    · simp [hacc]
  · have h1 : (reconcile (par_scan env tolv S (S.map (fun g => env.iter g temp))) S
        (S.map (fun g => env.iter g temp))).length ≤ n := by
      rw [hlenL]; omega
    have h2 : (tol_pass env tolv temp S).length ≤ n := by
      rw [hlenR]; omega
    rw [List.getElem?_eq_none h1, List.getElem?_eq_none h2]

lemma par_rounds_snoc (env : LayoutEnv) (anneal : ℚ → ℚ) (tolv : ℚ) (n : ℕ)
    (p : ParSt) :
    par_rounds env anneal tolv (n + 1) p =
      par_round env anneal tolv (par_rounds env anneal tolv n p) := by
  induction n generalizing p with
  | zero => rfl
  | succ n ih =>
      show par_rounds env anneal tolv (n + 1) (par_round env anneal tolv p) = _
      rw [ih]
      rfl

lemma seq_rounds_snoc (env : LayoutEnv) (anneal : ℚ → ℚ) (tolv : ℚ) (n : ℕ)
    (S : List GraphState) (T : ℚ) :
    seq_rounds env anneal tolv (n + 1) S T =
      tol_pass env tolv (anneal^[n] T) (seq_rounds env anneal tolv n S T) := by
  induction n generalizing S T with
  | zero => rfl
  | succ n ih =>
      show seq_rounds env anneal tolv (n + 1) (tol_pass env tolv T S) (anneal T) = _
      rw [ih, Function.iterate_succ_apply]
      rfl

lemma reconcile_replicate_false (S C : List GraphState) :
    reconcile (List.replicate S.length false) S C = S := by
  apply List.ext_getElem?
  intro n
  by_cases hn : n < S.length
  · unfold reconcile
    rw [List.getElem?_map, List.getElem?_range hn]
    simp [List.getD_eq_getElem?_getD, List.getElem?_replicate, hn,
      List.getElem?_eq_getElem hn]
  · unfold reconcile
    rw [List.getElem?_eq_none (by simpa using (by omega : S.length ≤ n)),
      List.getElem?_eq_none (by omega)]

/-- Round invariant for the parallel pass: after `r + 1` rounds, the
authoritative states equal the result of `r` sequential iterations, the
copies are those states iterated at the round-`r` temperature, and the
pending `apply` vector holds the acceptance pattern of sequential iteration
`r` — which is never written back when `r + 1` is the final round. -/
lemma par_rounds_inv (env : LayoutEnv) (anneal : ℚ → ℚ) (tolv : ℚ)
    (states : List GraphState) (T0 : ℚ) (r : ℕ) :
    par_rounds env anneal tolv (r + 1)
      { sts := states, cps := states, ap := List.replicate states.length false,
        temp := T0 } =
      (let P := seq_rounds env anneal tolv r states T0
       { sts := P, cps := P.map (fun g => env.iter g (anneal^[r] T0)),
         ap := par_scan env tolv P (P.map (fun g => env.iter g (anneal^[r] T0))),
         temp := anneal^[r + 1] T0 }) := by
  induction r with
  | zero =>
      show par_round env anneal tolv _ = _
      unfold par_round
      dsimp only
      rw [reconcile_replicate_false states states]
      rfl
  | succ r ih =>
      rw [par_rounds_snoc, ih]
      dsimp only
      unfold par_round
      dsimp only
      rw [reconcile_scan_eq_tol_pass, ← seq_rounds_snoc]
      rw [show anneal (anneal^[r + 1] T0) = anneal^[r + 1 + 1] T0 from
        (Function.iterate_succ_apply' anneal (r + 1) T0).symm]

/-- The parallel tolerance pass computes the acceptance pattern of every
sequential iteration but never reconciles the final round's accepted copies
back into `states`: its result is exactly the sequential pass with the last
iteration's updates dropped. -/
theorem par_tolerance_eq_seq_pred (env : LayoutEnv) (c : Cooling) (tol : ℚ)
    (states : List GraphState) :
    par_tolerance env c tol states =
      seq_tolerance env ⟨c.iterations - 1, c.start_temperature, c.anneal⟩ tol states := by
  unfold par_tolerance seq_tolerance
  cases hN : c.iterations with
  | zero => rfl
  | succ r =>
      rw [par_rounds_inv]
      rfl

lemma length_set_bool_values (b : List GraphState) :
    (set_bool_values b).length = b.length := by
  simp [set_bool_values]

lemma getD_set_bool_values (b : List GraphState) (t : ℕ) (ht : t < b.length) :
    (set_bool_values b).getD t {} = flag_state b t := by
  unfold set_bool_values
  rw [List.getD_eq_getElem?_getD, List.getElem?_map, List.getElem?_range ht]
  rfl

lemma node_exists_flag_state (b : List GraphState) (t : ℕ) (id : ℕ) :
    node_exists (flag_state b t) id = node_exists (b.getD t {}) id := by
  unfold flag_state node_exists
  dsimp only
  rw [List.any_map]
  rfl

lemma edge_exists_flag_state (b : List GraphState) (t : ℕ) (id : ℕ) :
    edge_exists (flag_state b t) id = edge_exists (b.getD t {}) id := by
  unfold flag_state edge_exists
  dsimp only
  rw [List.any_map]
  rfl

lemma node_exists_set_bool_values (b : List GraphState) (j : ℕ) (id : ℕ) :
    node_exists ((set_bool_values b).getD j {}) id = node_exists (b.getD j {}) id := by
  by_cases hj : j < b.length
  · rw [getD_set_bool_values b j hj, node_exists_flag_state]
  · rw [List.getD_eq_getElem?_getD, List.getD_eq_getElem?_getD,
      List.getElem?_eq_none (by simpa [length_set_bool_values] using Nat.le_of_not_lt hj),
      List.getElem?_eq_none (Nat.le_of_not_lt hj)]

lemma edge_exists_set_bool_values (b : List GraphState) (j : ℕ) (id : ℕ) :
    edge_exists ((set_bool_values b).getD j {}) id = edge_exists (b.getD j {}) id := by
  by_cases hj : j < b.length
  · rw [getD_set_bool_values b j hj, edge_exists_flag_state]
  · rw [List.getD_eq_getElem?_getD, List.getD_eq_getElem?_getD,
      List.getElem?_eq_none (by simpa [length_set_bool_values] using Nat.le_of_not_lt hj),
      List.getElem?_eq_none (Nat.le_of_not_lt hj)]

/-- The flag postcondition of `set_bool_values`, stated over its own output
(membership of the neighbors is unchanged by the flag pass). -/
lemma set_bool_values_spec (b : List GraphState) (t : ℕ) (ht : t < b.length) :
    (∀ n ∈ ((set_bool_values b).getD t {}).nodes,
        n.is_new = (decide (0 < t)
          && !(node_exists ((set_bool_values b).getD (t - 1) {}) n.id))
      ∧ n.is_old = (decide (t < (set_bool_values b).length - 1)
          && !(node_exists ((set_bool_values b).getD (t + 1) {}) n.id)))
    ∧ (∀ e ∈ ((set_bool_values b).getD t {}).edges,
        e.is_new = (decide (0 < t)
          && !(edge_exists ((set_bool_values b).getD (t - 1) {}) e.id))
      ∧ e.is_old = (decide (t < (set_bool_values b).length - 1)
          && !(edge_exists ((set_bool_values b).getD (t + 1) {}) e.id))) := by
  rw [getD_set_bool_values b t ht, length_set_bool_values]
  constructor
  · intro n hn
    unfold flag_state at hn
    dsimp only at hn
    obtain ⟨n0, hn0, rfl⟩ := List.mem_map.1 hn
    dsimp only
    rw [node_exists_set_bool_values, node_exists_set_bool_values]
    exact ⟨rfl, rfl⟩
  · intro e he
    unfold flag_state at he
    dsimp only at he
    obtain ⟨e0, he0, rfl⟩ := List.mem_map.1 he
    dsimp only
    rw [edge_exists_set_bool_values, edge_exists_set_bool_values]
    exact ⟨rfl, rfl⟩

/-- C2: after `build()`, for every state index `t` and every node/edge in
`states[t]`: `is_new` holds iff `t > 0` and the element is absent from
`states[t−1]`, and `is_old` holds iff `t` is not the last index and the
element is absent from `states[t+1]`. -/
theorem c2_build_flags (log : List (List Op)) (states : List GraphState)
    (h : buildDG log = .ok states) (t : ℕ) (ht : t < states.length) :
    (∀ n ∈ (states.getD t {}).nodes,
        n.is_new = (decide (0 < t) && !(node_exists (states.getD (t - 1) {}) n.id))
      ∧ n.is_old = (decide (t < states.length - 1)
          && !(node_exists (states.getD (t + 1) {}) n.id)))
    ∧ (∀ e ∈ (states.getD t {}).edges,
        e.is_new = (decide (0 < t) && !(edge_exists (states.getD (t - 1) {}) e.id))
      ∧ e.is_old = (decide (t < states.length - 1)
          && !(edge_exists (states.getD (t + 1) {}) e.id))) := by
  unfold buildDG at h
  cases hb : apply_modifications log with
  | error e => rw [hb] at h; exact absurd h (by simp [Bind.bind, Except.bind])
  | ok base =>
      rw [hb] at h
      have hst : states = set_bool_values base := by
        simpa [Bind.bind, Except.bind, pure, Except.pure] using h.symm
      subst hst
      exact set_bool_values_spec base t (by
        rwa [length_set_bool_values] at ht)

/-- Witness for C2 at a concrete build: three steps, node 1 and edge 0 live
only in the middle state; checked at `t = 1`. -/
theorem c2_build_flags_witness :
    buildDG c2_log = .ok c2_states ∧ 1 < c2_states.length ∧
    ((∀ n ∈ (c2_states.getD 1 {}).nodes,
        n.is_new = (decide (0 < 1) && !(node_exists (c2_states.getD (1 - 1) {}) n.id))
      ∧ n.is_old = (decide (1 < c2_states.length - 1)
          && !(node_exists (c2_states.getD (1 + 1) {}) n.id)))
    ∧ (∀ e ∈ (c2_states.getD 1 {}).edges,
        e.is_new = (decide (0 < 1) && !(edge_exists (c2_states.getD (1 - 1) {}) e.id))
      ∧ e.is_old = (decide (1 < c2_states.length - 1)
          && !(edge_exists (c2_states.getD (1 + 1) {}) e.id)))) :=
  ⟨by rfl, by decide, c2_build_flags c2_log c2_states (by rfl) 1 (by decide)⟩

/-- C1: for every keyframe sequence, canvas, tolerance and cooling schedule,
the parallel tolerance pass reproduces every sequential acceptance pattern
round by round (`par_rounds_inv` / `par_tolerance_eq_seq_pred`), but its
result omits the final round's accepted updates: with one round on a single
one-node keyframe and an iteration moving the node to `x = 1`, the sequential
pass ends with the node at `x = 1` while the parallel pass leaves it at
`x = 0` — refuting `foresighted_parallel.h`'s own promise of producing the
same results as `foresighted_layout`. -/
theorem c1_parallel_drops_last_round :
    (seq_tolerance move_env one_round 1 [one_node_state]).map
        (fun g => g.nodes.map (fun n => n.pos.x)) = [[1]]
    ∧ (par_tolerance move_env one_round 1 [one_node_state]).map
        (fun g => g.nodes.map (fun n => n.pos.x)) = [[0]]
    ∧ par_tolerance move_env one_round 1 [one_node_state] ≠
        seq_tolerance move_env one_round 1 [one_node_state] :=
  ⟨by rfl, by rfl, by decide⟩

/-- C3: the adjacency index does not stay symmetric under `remove_edge`.
After pushing nodes 0, 1, 2 and edges 10 = (0,1), 11 = (0,2), removing edge
10 erases key 0 from node 2's adjacency entry (because `remove_edges_if`
erases the removed edge's endpoint keys from *every* entry), while node 0's
entry still records node 2 via edge 11: `edge_exists(0,2)` is true but
`edge_exists(2,0)` is false. -/
theorem c3_adjacency_asymmetry :
    c3_graph.map (fun g => (edge_exists_pair g 0 2, edge_exists_pair g 2 0)) =
      .ok (some true, some false)
    ∧ c3_graph.map (fun g => alookup 0 g.index) = .ok (some [(2, 11)])
    ∧ c3_graph.map (fun g => alookup 2 g.index) = .ok (some []) :=
  ⟨by decide, by decide, by decide⟩

/-- C4: in the sequential tolerance pass, for every iteration (any temperature
of the cooling schedule) and every state index `s`, the entry at `s` after the
iteration is the iterated copy of the incoming `states[s]` exactly when
`(s = 0 ∨ distance(copy, out[s−1]) < τ_abs) ∧ (s = last ∨ distance(copy,
states[s+1]) < τ_abs)`, where the left neighbor is read from the iteration's
own output (it already reflects the decision for `s − 1`), the right neighbor
from the incoming states, and `τ_abs = tol_abs env τ states` is `τ` scaled by
`relative_unit · max_nodes` exactly in absolute-distance mode; `distance` sums
Euclidean node distances over shared nodes, divided by the shared count in
relative mode (`dist_lt`). -/
theorem c4_tolerance_accept (env : LayoutEnv) (tol temp : ℚ)
    (states : List GraphState) (s : ℕ) (hs : s < states.length) :
    (tol_pass env (tol_abs env tol states) temp states).getD s {} =
      (let copy := env.iter (states.getD s {}) temp
       if ((s == 0) || dist_lt env copy
             ((tol_pass env (tol_abs env tol states) temp states).getD (s - 1) {})
             (tol_abs env tol states))
          && (decide (states.length - 1 ≤ s)
              || dist_lt env copy (states.getD (s + 1) {}) (tol_abs env tol states))
       then copy else states.getD s {}) :=
  tol_pass_char env (tol_abs env tol states) temp states s hs

/-- Witness for C4 at a concrete input: one one-node keyframe, `s = 0`. -/
theorem c4_tolerance_accept_witness :
    0 < ([one_node_state] : List GraphState).length ∧
    (tol_pass move_env (tol_abs move_env 1 [one_node_state]) 1 [one_node_state]).getD 0 {} =
      (let copy := move_env.iter (([one_node_state] : List GraphState).getD 0 {}) 1
       if ((0 == 0) || dist_lt move_env copy
             ((tol_pass move_env (tol_abs move_env 1 [one_node_state]) 1 [one_node_state]).getD (0 - 1) {})
             (tol_abs move_env 1 [one_node_state]))
          && (decide (([one_node_state] : List GraphState).length - 1 ≤ 0)
              || dist_lt move_env copy (([one_node_state] : List GraphState).getD (0 + 1) {})
                   (tol_abs move_env 1 [one_node_state]))
       then copy else ([one_node_state] : List GraphState).getD 0 {}) :=
  ⟨by decide, c4_tolerance_accept move_env 1 1 [one_node_state] 0 (by decide)⟩

/-! ### Live-set merges and the GAP invariant (C5) -/

lemma mem_unionLS (a b : List ℕ) (t : ℕ) : t ∈ unionLS a b ↔ t ∈ a ∨ t ∈ b := by
  induction a, b using unionLS.induct with
  | case1 b => simp [unionLS]
  | case2 a as => simp [unionLS]
  | case3 a as b bs h ih =>
      simp only [unionLS, if_pos h]
      simp [ih]
      tauto
  | case4 a as b bs h1 h2 ih =>
      simp only [unionLS, if_neg h1, if_pos h2]
      simp [ih]
      tauto
  | case5 a as b bs h1 h2 ih =>
      simp only [unionLS, if_neg h1, if_neg h2]
      have hab : a = b := by omega
      subst hab
      simp [ih]
      tauto

lemma pairwise_head_lt {b : ℕ} {bs : List ℕ} (hb : (b :: bs).Pairwise (· < ·))
    {t : ℕ} (ht : t ∈ b :: bs) : b ≤ t := by
  rcases List.mem_cons.1 ht with rfl | h
  · exact le_rfl
  · exact le_of_lt ((List.pairwise_cons.1 hb).1 t h)

lemma mem_interLS (a b : List ℕ) (ha : a.Pairwise (· < ·))
    (hb : b.Pairwise (· < ·)) (t : ℕ) :
    t ∈ interLS a b ↔ t ∈ a ∧ t ∈ b := by
  induction a, b using interLS.induct with
  | case1 b => simp [interLS]
  | case2 a as => simp [interLS]
  | case3 a as b bs h ih =>
      simp only [interLS, if_pos h]
      rw [ih (List.pairwise_cons.1 ha).2 hb]
      constructor
      · exact fun ⟨h1, h2⟩ => ⟨List.mem_cons_of_mem a h1, h2⟩
      · rintro ⟨h1, h2⟩
        refine ⟨?_, h2⟩
        rcases List.mem_cons.1 h1 with rfl | h1
        · exact absurd (pairwise_head_lt hb h2) (by omega)
        · exact h1
  | case4 a as b bs h1 h2 ih =>
      simp only [interLS, if_neg h1, if_pos h2]
      rw [ih ha (List.pairwise_cons.1 hb).2]
      constructor
      · exact fun ⟨h3, h4⟩ => ⟨h3, List.mem_cons_of_mem b h4⟩
      · rintro ⟨h3, h4⟩
        refine ⟨h3, ?_⟩
        rcases List.mem_cons.1 h4 with rfl | h4
        · exact absurd (pairwise_head_lt ha h3) (by omega)
        · exact h4
  | case5 a as b bs h1 h2 ih =>
      have hab : a = b := by omega
      subst hab
      simp only [interLS, if_neg h1, if_neg h2, List.mem_cons]
      rw [ih (List.pairwise_cons.1 ha).2 (List.pairwise_cons.1 hb).2]
      constructor
      · rintro (rfl | ⟨h3, h4⟩)
        · simp
        · simp [h3, h4]
      · rintro ⟨rfl | h3, h4⟩
        · simp
        · rcases h4 with rfl | h4
          · exact Or.inl rfl
          · exact Or.inr ⟨h3, h4⟩

lemma interLS_nil_iff (a b : List ℕ) (ha : a.Pairwise (· < ·))
    (hb : b.Pairwise (· < ·)) :
    interLS a b = [] ↔ ∀ t ∈ a, t ∉ b := by
  rw [List.eq_nil_iff_forall_not_mem]
  constructor
  · intro h t hta htb
    exact h t ((mem_interLS a b ha hb t).2 ⟨hta, htb⟩)
  · intro h t ht
    obtain ⟨h1, h2⟩ := (mem_interLS a b ha hb t).1 ht
    exact h t h1 h2

lemma pairwise_unionLS (a b : List ℕ) (ha : a.Pairwise (· < ·))
    (hb : b.Pairwise (· < ·)) : (unionLS a b).Pairwise (· < ·) := by
  induction a, b using unionLS.induct with
  | case1 b => simpa [unionLS] using hb
  | case2 a as => simpa [unionLS] using ha
  | case3 a as b bs h ih =>
      simp only [unionLS, if_pos h]
      rw [List.pairwise_cons]
      refine ⟨?_, ih (List.pairwise_cons.1 ha).2 hb⟩
      intro t ht
      rcases (mem_unionLS as (b :: bs) t).1 ht with h1 | h1
      · exact (List.pairwise_cons.1 ha).1 t h1
      · exact lt_of_lt_of_le h (pairwise_head_lt hb h1)
  | case4 a as b bs h1 h2 ih =>
      simp only [unionLS, if_neg h1, if_pos h2]
      rw [List.pairwise_cons]
      refine ⟨?_, ih ha (List.pairwise_cons.1 hb).2⟩
      intro t ht
      rcases (mem_unionLS (a :: as) bs t).1 ht with h3 | h3
      · exact lt_of_lt_of_le h2 (pairwise_head_lt ha h3)
      · exact (List.pairwise_cons.1 hb).1 t h3
  | case5 a as b bs h1 h2 ih =>
      have hab : a = b := by omega
      subst hab
      simp only [unionLS, if_neg h1, if_neg h2]
      rw [List.pairwise_cons]
      refine ⟨?_, ih (List.pairwise_cons.1 ha).2 (List.pairwise_cons.1 hb).2⟩
      intro t ht
      rcases (mem_unionLS as bs t).1 ht with h3 | h3
      · exact (List.pairwise_cons.1 ha).1 t h3
      · exact (List.pairwise_cons.1 hb).1 t h3

lemma alookup_append_some {β : Type} (k : ℕ) (l1 l2 : List (ℕ × β)) (v : β)
    (h : alookup k l1 = some v) : alookup k (l1 ++ l2) = some v := by
  induction l1 with
  | nil => simp [alookup] at h
  | cons kv l1 ih =>
      obtain ⟨k', v'⟩ := kv
      rw [List.cons_append]
      simp only [alookup] at h ⊢
      split_ifs at h ⊢ with hk
      · exact h
      · exact ih h

lemma alookup_append_none {β : Type} (k : ℕ) (l1 l2 : List (ℕ × β))
    (h : alookup k l1 = none) : alookup k (l1 ++ l2) = alookup k l2 := by
  induction l1 with
  | nil => rfl
  | cons kv l1 ih =>
      obtain ⟨k', v'⟩ := kv
      rw [List.cons_append]
      simp only [alookup] at h ⊢
      split_ifs at h ⊢ with hk
      · exact ih h

lemma alookup_mem {β : Type} (k : ℕ) (l : List (ℕ × β)) (v : β)
    (h : alookup k l = some v) : (k, v) ∈ l := by
  induction l with
  | nil => simp [alookup] at h
  | cons kv l ih =>
      obtain ⟨k', v'⟩ := kv
      simp only [alookup] at h
      split_ifs at h with hk
      · obtain rfl := hk
        obtain rfl : v' = v := by simpa using h
        exact List.mem_cons_self _ _
      · exact List.mem_cons_of_mem _ (ih h)

lemma alookup_single {β : Type} (k k' : ℕ) (v : β) :
    alookup k [(k', v)] = if k' = k then some v else none := rfl

/-- The behavior of the partition scan in `calculate_gap`: either no existing
partition's live set is disjoint from the new node's and a fresh partition is
appended, or the scan stops at the first disjoint partition, extends its live
set and reports its id. -/
lemma gap_insert_spec (id : ℕ) (live : List ℕ) (parts : List PartNode) :
    ((∀ q ∈ parts, interLS q.live live ≠ []) ∧
       gap_insert id live parts = (parts ++ [⟨id, live⟩], none))
    ∨ (∃ l1 p l2, parts = l1 ++ p :: l2 ∧ (∀ q ∈ l1, interLS q.live live ≠ []) ∧
        interLS p.live live = [] ∧
        gap_insert id live parts =
          (l1 ++ ⟨p.pid, unionLS p.live live⟩ :: l2, some p.pid)) := by
  induction parts with
  | nil => exact Or.inl ⟨by simp, rfl⟩
  | cons p ps ih =>
      by_cases hp : interLS p.live live = []
      · right
        exact ⟨[], p, ps, rfl, by simp, hp, by simp [gap_insert, hp]⟩
      · rcases ih with ⟨h1, h2⟩ | ⟨l1, q, l2, hps, h1, h2, h3⟩
        · left
          refine ⟨?_, ?_⟩
          · intro q hq
            rcases List.mem_cons.1 hq with rfl | hq
            · exact hp
            · exact h1 q hq
          · simp [gap_insert, hp, h2]
        · subst hps
          right
          refine ⟨p :: l1, q, l2, rfl, ?_, h2, ?_⟩
          · intro r hr
            rcases List.mem_cons.1 hr with rfl | hr
            · exact hp
            · exact h1 r hr
          · rw [show gap_insert id live (p :: (l1 ++ q :: l2)) =
              (p :: (gap_insert id live (l1 ++ q :: l2)).1,
                (gap_insert id live (l1 ++ q :: l2)).2) from by
                simp [gap_insert, hp], h3]
            simp

lemma ids_of_mem {x : ℕ × List ℕ} {done : List (ℕ × List ℕ)} (h : x ∈ done) :
    x.1 ∈ done.map Prod.fst :=
  List.mem_map_of_mem Prod.fst h

lemma mem_ids_append_left {a : ℕ} {done : List (ℕ × List ℕ)} (x : ℕ × List ℕ)
    (h : a ∈ done.map Prod.fst) : a ∈ (done ++ [x]).map Prod.fst := by
  rw [List.map_append]
  exact List.mem_append_left _ h

/-- One step of the GAP loop preserves the invariant, for a fresh node id
with a sorted live set. -/
lemma gap_inv_step (done : List (ℕ × List ℕ)) (x : ℕ × List ℕ) (g : Gap)
    (hinv : GapInv done g) (hfresh : x.1 ∉ done.map Prod.fst)
    (hsx : x.2.Pairwise (· < ·)) : GapInv (done ++ [x]) (gap_step g x) := by
  have hlookup : alookup x.1 g.amap = none := by
    cases hl : alookup x.1 g.amap with
    | none => rfl
    | some v => exact absurd (hinv.keys_sub _ (alookup_mem _ _ _ hl)) hfresh
  have hne_of_mem : ∀ y ∈ done, y.1 ≠ x.1 := fun y hy h =>
    hfresh (h ▸ ids_of_mem hy)
  have hx_pid_fresh : ∀ p ∈ g.parts, p.pid ≠ x.1 := fun p hp h =>
    hfresh (h ▸ hinv.pids_sub p hp)
  have hxid : x.1 ∈ (done ++ [x]).map Prod.fst := by
    rw [List.map_append]
    exact List.mem_append_right _ (by simp)
  rcases gap_insert_spec x.1 x.2 g.parts with ⟨hall, heq⟩ |
    ⟨l1, p, l2, hparts, hl1, hdisj, heq⟩
  -- Case B: no partition matched; a fresh partition ⟨x.1, x.2⟩ is appended.
  · have hstep : gap_step g x = { parts := g.parts ++ [⟨x.1, x.2⟩], amap := g.amap } := by
      unfold gap_step
      rw [heq]
    have hstable : ∀ id, id ≠ x.1 →
        assigned_to (gap_step g x) id = assigned_to g id := by
      intro id hid
      rw [hstep]
      unfold assigned_to
      dsimp only
      cases hl : alookup id g.amap with
      | some v => rfl
      | none =>
          simp only [List.any_append]
          have hone : (([⟨x.1, x.2⟩] : List PartNode).any (fun p => p.pid = id)) = false := by
            simp [Ne.symm hid]
          rw [hone, Bool.or_false]
    have hnew : assigned_to (gap_step g x) x.1 = some x.1 := by
      rw [hstep]
      unfold assigned_to
      dsimp only
      rw [hlookup]
      simp
    refine ⟨?_, ?_, ?_, ?_, ?_, ?_⟩
    · intro p hp
      rw [hstep] at hp
      rcases List.mem_append.1 hp with hp | hp
      · exact hinv.sorted p hp
      · obtain rfl : p = ⟨x.1, x.2⟩ := by simpa using hp
        exact hsx
    · rw [hstep]
      dsimp only
      rw [List.map_append, List.nodup_append]
      refine ⟨hinv.pids_nodup, by simp, ?_⟩
      intro a ha hb
      obtain rfl : a = x.1 := by simpa using hb
      obtain ⟨p, hp, hpa⟩ := List.mem_map.1 ha
      exact hx_pid_fresh p hp hpa
    · intro p hp
      rw [hstep] at hp
      rcases List.mem_append.1 hp with hp | hp
      · exact mem_ids_append_left x (hinv.pids_sub p hp)
      · obtain rfl : p = ⟨x.1, x.2⟩ := by simpa using hp
        exact hxid
    · intro kv hkv
      rw [hstep] at hkv
      exact mem_ids_append_left x (hinv.keys_sub kv hkv)
    · intro y hy
      rcases List.mem_append.1 hy with hy | hy
      · obtain ⟨p, hp, hasg, hcont⟩ := hinv.total y hy
        refine ⟨p, by rw [hstep]; exact List.mem_append_left _ hp, ?_, hcont⟩
        rw [hstable y.1 (hne_of_mem y hy)]
        exact hasg
      · obtain rfl : y = x := by simpa using hy
        refine ⟨⟨y.1, y.2⟩, ?_, hnew, fun t ht => ht⟩
        rw [hstep]
        exact List.mem_append_right _ (by simp)
    · rw [List.pairwise_append]
      refine ⟨?_, by simp, ?_⟩
      · refine hinv.disj.imp_of_mem ?_
        intro y z hy hz h pid hy' hz'
        rw [hstable y.1 (hne_of_mem y hy)] at hy'
        rw [hstable z.1 (hne_of_mem z hz)] at hz'
        exact h pid hy' hz'
      · intro y hy z hz
        obtain rfl : z = x := by simpa using hz
        intro pid hy' hx'
        rw [hnew] at hx'
        obtain rfl : pid = z.1 := by simpa using hx'.symm
        rw [hstable y.1 (hne_of_mem y hy)] at hy'
        obtain ⟨p, hp, hasg, _⟩ := hinv.total y hy
        rw [hasg] at hy'
        obtain hpid : p.pid = z.1 := by simpa using hy'
        exact absurd hpid (hx_pid_fresh p hp)
  -- Case A: the scan matched partition `p`; it is extended and `x` aliased.
  · have hstep : gap_step g x =
        { parts := l1 ++ ⟨p.pid, unionLS p.live x.2⟩ :: l2,
          amap := g.amap ++ [(x.1, p.pid)] } := by
      unfold gap_step
      rw [heq]
    have hp_mem : p ∈ g.parts := by
      rw [hparts]
      exact List.mem_append_right _ (List.mem_cons_self _ _)
    have hpids_eq : (l1 ++ (⟨p.pid, unionLS p.live x.2⟩ : PartNode) :: l2).map PartNode.pid
        = g.parts.map PartNode.pid := by
      rw [hparts]
      simp
    have hstable : ∀ id, id ≠ x.1 →
        assigned_to (gap_step g x) id = assigned_to g id := by
      intro id hid
      rw [hstep]
      unfold assigned_to
      dsimp only
      cases hl : alookup id g.amap with
      | some v => rw [alookup_append_some _ _ _ _ hl]
      | none =>
          rw [alookup_append_none _ _ _ hl, alookup_single,
            if_neg (Ne.symm hid)]
          have hany : (l1 ++ (⟨p.pid, unionLS p.live x.2⟩ : PartNode) :: l2).any
              (fun q => q.pid = id) = g.parts.any (fun q => q.pid = id) := by
            rw [hparts]
            simp
          rw [hany]
    have hnew : assigned_to (gap_step g x) x.1 = some p.pid := by
      rw [hstep]
      unfold assigned_to
      dsimp only
      rw [alookup_append_none _ _ _ hlookup, alookup_single, if_pos rfl]
    -- a member of the old parts other than `p` survives unchanged
    have hsurvive : ∀ q ∈ g.parts, q ≠ p →
        q ∈ l1 ++ (⟨p.pid, unionLS p.live x.2⟩ : PartNode) :: l2 := by
      intro q hq hqp
      rw [hparts] at hq
      rcases List.mem_append.1 hq with hq | hq
      · exact List.mem_append_left _ hq
      · rcases List.mem_cons.1 hq with rfl | hq
        · exact absurd rfl hqp
        · exact List.mem_append_right _ (List.mem_cons_of_mem _ hq)
    have hpid_unique : ∀ q ∈ g.parts, q.pid = p.pid → q = p := by
      intro q hq hpq
      exact List.inj_on_of_nodup_map hinv.pids_nodup hq hp_mem hpq
    refine ⟨?_, ?_, ?_, ?_, ?_, ?_⟩
    · intro q hq
      rw [hstep] at hq
      rcases List.mem_append.1 hq with hq | hq
      · exact hinv.sorted q (by rw [hparts]; exact List.mem_append_left _ hq)
      · rcases List.mem_cons.1 hq with rfl | hq
        · exact pairwise_unionLS _ _ (hinv.sorted p hp_mem) hsx
        · exact hinv.sorted q (by
            rw [hparts]
            exact List.mem_append_right _ (List.mem_cons_of_mem _ hq))
    · rw [hstep]
      dsimp only
      rw [hpids_eq]
      exact hinv.pids_nodup
    · intro q hq
      rw [hstep] at hq
      have hqp : q.pid ∈ g.parts.map PartNode.pid := by
        rw [← hpids_eq]
        exact List.mem_map_of_mem PartNode.pid hq
      obtain ⟨q', hq', hq'eq⟩ := List.mem_map.1 hqp
      exact mem_ids_append_left x (hq'eq ▸ hinv.pids_sub q' hq')
    · intro kv hkv
      rw [hstep] at hkv
      rcases List.mem_append.1 hkv with hkv | hkv
      · exact mem_ids_append_left x (hinv.keys_sub kv hkv)
      · obtain rfl : kv = (x.1, p.pid) := by simpa using hkv
        exact hxid
    · intro y hy
      rcases List.mem_append.1 hy with hy | hy
      · obtain ⟨q, hq, hasg, hcont⟩ := hinv.total y hy
        by_cases hqp : q = p
        · subst hqp
          refine ⟨⟨q.pid, unionLS q.live x.2⟩, ?_, ?_, ?_⟩
          · rw [hstep]
            exact List.mem_append_right _ (List.mem_cons_self _ _)
          · rw [hstable y.1 (hne_of_mem y hy)]
            exact hasg
          · intro t ht
            exact (mem_unionLS _ _ t).2 (Or.inl (hcont t ht))
        · refine ⟨q, ?_, ?_, hcont⟩
          · rw [hstep]
            exact hsurvive q hq hqp
          · rw [hstable y.1 (hne_of_mem y hy)]
            exact hasg
      · obtain rfl : y = x := by simpa using hy
        refine ⟨⟨p.pid, unionLS p.live y.2⟩, ?_, hnew, ?_⟩
        · rw [hstep]
          exact List.mem_append_right _ (List.mem_cons_self _ _)
        · intro t ht
          exact (mem_unionLS _ _ t).2 (Or.inr ht)
    · rw [List.pairwise_append]
      refine ⟨?_, by simp, ?_⟩
      · refine hinv.disj.imp_of_mem ?_
        intro y z hy hz h pid hy' hz'
        rw [hstable y.1 (hne_of_mem y hy)] at hy'
        rw [hstable z.1 (hne_of_mem z hz)] at hz'
        exact h pid hy' hz'
      · intro y hy z hz
        obtain rfl : z = x := by simpa using hz
        intro pid hy' hx'
        rw [hnew] at hx'
        obtain rfl : pid = p.pid := by simpa using hx'.symm
        rw [hstable y.1 (hne_of_mem y hy)] at hy'
        obtain ⟨q, hq, hasg, hcont⟩ := hinv.total y hy
        rw [hasg] at hy'
        obtain hpq : q.pid = p.pid := by simpa using hy'
        obtain rfl := hpid_unique q hq hpq
        intro t ht hxt
        exact (interLS_nil_iff q.live z.2 (hinv.sorted q hq) hsx).1 hdisj
          t (hcont t ht) hxt

/-- The GAP loop invariant holds after processing any list of supergraph
nodes with distinct ids and sorted live sets. -/
lemma gap_inv_fold (xs : List (ℕ × List ℕ)) (done : List (ℕ × List ℕ)) (g : Gap)
    (hinv : GapInv done g)
    (hnodup : (done.map Prod.fst ++ xs.map Prod.fst).Nodup)
    (hsorted : ∀ x ∈ xs, x.2.Pairwise (· < ·)) :
    GapInv (done ++ xs) (xs.foldl gap_step g) := by
  induction xs generalizing done g with
  | nil => simpa using hinv
  | cons x xs ih =>
      have hfresh : x.1 ∉ done.map Prod.fst := by
        intro h
        rw [List.nodup_append] at hnodup
        exact hnodup.2.2 h (by simp)
      have hstep := gap_inv_step done x g hinv hfresh
        (hsorted x (List.mem_cons_self _ _))
      have hres := ih (done ++ [x]) (gap_step g x) hstep
        (by simpa [List.append_assoc] using hnodup)
        (fun y hy => hsorted y (List.mem_cons_of_mem _ hy))
      simpa [List.append_assoc] using hres

lemma node_live_sorted (states : List GraphState) (id : ℕ) :
    (node_live states id).Pairwise (· < ·) :=
  (List.pairwise_lt_range _).filter _

lemma nodup_fold_ids (f : Node → ℕ) :
    ∀ (ns : List Node) (acc : List ℕ), acc.Nodup →
      (ns.foldl (fun a n => if a.contains (f n) then a else a ++ [f n]) acc).Nodup := by
  intro ns
  induction ns with
  | nil => exact fun acc h => h
  | cons n ns ih =>
      intro acc h
      by_cases hc : acc.contains (f n)
      · have hm : f n ∈ acc := by simpa [List.contains, List.elem_iff] using hc
        simpa [hm] using ih acc h
      · have hm : f n ∉ acc := by
          intro hmem
          exact absurd (by simpa [List.contains, List.elem_iff] using hmem) hc
        have hnd : (acc ++ [f n]).Nodup := by
          rw [List.nodup_append]
          exact ⟨h, by simp, by
            intro a ha hb
            obtain rfl : a = f n := by simpa using hb
            exact hm ha⟩
        simpa [hm] using ih (acc ++ [f n]) hnd

lemma super_ids_nodup (states : List GraphState) : (super_ids states).Nodup := by
  unfold super_ids
  suffices h : ∀ (sts : List GraphState) (acc : List ℕ), acc.Nodup →
      (sts.foldl (fun acc st =>
        st.nodes.foldl (fun a n => if a.contains n.id then a else a ++ [n.id]) acc) acc).Nodup by
    exact h states [] (by simp)
  intro sts
  induction sts with
  | nil => exact fun acc h => h
  | cons st sts ih =>
      intro acc h
      exact ih _ (nodup_fold_ids Node.id st.nodes acc h)

/-- The full GAP invariant for the partitioning of a keyframe sequence. -/
lemma gap_inv_of (states : List GraphState) :
    GapInv ((super_ids states).map (fun i => (i, node_live states i)))
      (gap_of states) := by
  have h0 : GapInv [] ({} : Gap) := by
    refine ⟨?_, ?_, ?_, ?_, ?_, ?_⟩ <;> simp
  have hres := gap_inv_fold ((super_ids states).map (fun i => (i, node_live states i)))
    [] {} h0
    (by
      simp only [List.nil_append, List.map_map]
      have : ((fun x => x.1) ∘ fun i => (i, node_live states i)) = id := rfl
      rw [this, List.map_id]
      exact super_ids_nodup states)
    (by
      intro x hx
      obtain ⟨i, _, rfl⟩ := List.mem_map.1 hx
      exact node_live_sorted states i)
  simpa [gap_of, calculate_gap] using hres

/-- C5: in the GAP produced by `calculate_gap` for any keyframe sequence,
every supergraph node is assigned to exactly one partition node (`assigned_to`
is a function and is defined on every supergraph node), and any two distinct
supergraph nodes assigned to the same partition node — by aliasing or direct
membership — have disjoint live sets. -/
theorem c5_gap_partition (states : List GraphState) :
    (∀ c ∈ super_ids states, (assigned_to (gap_of states) c).isSome = true)
    ∧ (∀ a b, a ∈ super_ids states → b ∈ super_ids states → a ≠ b →
        ∀ pid, assigned_to (gap_of states) a = some pid →
          assigned_to (gap_of states) b = some pid →
          ∀ t ∈ node_live states a, t ∉ node_live states b) := by
  have hinv := gap_inv_of states
  constructor
  · intro c hc
    obtain ⟨p, _, hasg, _⟩ := hinv.total (c, node_live states c)
      (by simpa using List.mem_map_of_mem (fun i => (i, node_live states i)) hc)
    rw [show assigned_to (gap_of states) c = some p.pid from hasg]
    rfl
  · intro a b ha hb hab pid hpa hpb
    have hsymm : Symmetric (fun (x y : ℕ × List ℕ) =>
        ∀ pid, assigned_to (gap_of states) x.1 = some pid →
          assigned_to (gap_of states) y.1 = some pid → ∀ t ∈ x.2, t ∉ y.2) := by
      intro u v huv pid h1 h2 t ht1 ht2
      exact huv pid h2 h1 t ht2 ht1
    have hpair := hinv.disj.forall hsymm
      (a := (a, node_live states a)) (b := (b, node_live states b))
      (by simpa using List.mem_map_of_mem (fun i => (i, node_live states i)) ha)
      (by simpa using List.mem_map_of_mem (fun i => (i, node_live states i)) hb)
      (by
        intro h
        exact hab (congrArg Prod.fst h))
    exact hpair pid hpa hpb

/-- Witness for C5: nodes 5 (alive in state 0) and 9 (alive in state 1) are
merged into partition 5; their live sets are disjoint and both are assigned. -/
theorem c5_gap_partition_witness :
    (5 ∈ super_ids c5_states) ∧ (9 ∈ super_ids c5_states) ∧ ((5:ℕ) ≠ 9)
    ∧ assigned_to (gap_of c5_states) 5 = some 5
    ∧ assigned_to (gap_of c5_states) 9 = some 5
    ∧ (assigned_to (gap_of c5_states) 9).isSome = true
    ∧ (∀ t ∈ node_live c5_states 5, t ∉ node_live c5_states 9) := by
  have h1 : super_ids c5_states = [5, 9] := by decide
  have h2 : node_live c5_states 5 = [0] := by decide
  have h3 : node_live c5_states 9 = [1] := by decide
  have h4 : interLS [0] [1] = [] := by simp [interLS]
  have h5 : unionLS [0] [1] = [0, 1] := by simp [unionLS]
  have hgap : gap_of c5_states = { parts := [⟨5, [0, 1]⟩], amap := [(9, 5)] } := by
    unfold gap_of
    rw [h1]
    simp only [List.map_cons, List.map_nil, h2, h3]
    simp [calculate_gap, gap_step, gap_insert, h4, h5]
  refine ⟨by decide, by decide, by decide, by rw [hgap]; decide, by rw [hgap]; decide,
    (c5_gap_partition c5_states).1 9 (by decide),
    (c5_gap_partition c5_states).2 5 9 (by decide) (by decide) (by decide) 5
      (by rw [hgap]; decide) (by rw [hgap]; decide)⟩

/-- C6: the per-iteration border force diverges from the specified formula:
`reset_and_border` calls `border_displacement(k, width, pos.x)` against the
declared parameter order `(k, coord, size)`, so the canvas dimension lands in
`coord` and the node coordinate in `size`.  At `border_force = 0.6`, `k = 1`,
canvas width 1 and `pos.x = 1/4` the code yields `−800000/5252667 ≈ −0.152`
while the specified formula yields `−300000/188501 ≈ −1.591`. -/
theorem c6_border_force_divergence :
    (reset_and_border (3/5) 1 1 1 ⟨1/4, 0⟩).x = -(800000/5252667)
    ∧ border_force_spec (3/5) 1 1 (1/4) = -(300000/188501)
    ∧ (reset_and_border (3/5) 1 1 1 ⟨1/4, 0⟩).x ≠ border_force_spec (3/5) 1 1 (1/4) := by
  refine ⟨?_, ?_, ?_⟩
  · show border_displacement (3/5) 1 1 (1/4) = -(800000/5252667)
    simp only [border_displacement]
    norm_num [abs_of_nonneg, abs_of_nonpos]
  · simp only [border_force_spec]
    norm_num [abs_of_nonneg, abs_of_nonpos]
  · show border_displacement (3/5) 1 1 (1/4) ≠ border_force_spec (3/5) 1 1 (1/4)
    simp only [border_displacement, border_force_spec]
    norm_num [abs_of_nonneg, abs_of_nonpos]

/-- C7: `set_phases` succeeds exactly when {appear, disappear, morph} each
occur once and simultaneous does not, or simultaneous occurs once and the
other three not at all (idle unconstrained); on success the new sequence is
stored, on failure (`InvalidPhases`) the previously stored sequence is kept. -/
theorem c7_set_phases (cur ps : List Phase) :
    ((set_phases cur ps).2 = none ↔
      ((ps.count .appear = 1 ∧ ps.count .disappear = 1 ∧ ps.count .morph = 1
          ∧ ps.count .simult = 0)
        ∨ (ps.count .simult = 1 ∧ ps.count .appear = 0 ∧ ps.count .disappear = 0
          ∧ ps.count .morph = 0)))
    ∧ ((set_phases cur ps).2 = none → (set_phases cur ps).1 = ps)
    ∧ ((set_phases cur ps).2 ≠ none → (set_phases cur ps).1 = cur) := by
  unfold set_phases
  dsimp only
  split_ifs with h1 h2
  · refine ⟨by simp; omega, by simp, fun _ => rfl⟩
  · refine ⟨by simp; omega, by simp, fun _ => rfl⟩
  · refine ⟨by simp; omega, fun _ => rfl, by simp⟩

/-- Witness for C7: `[simultaneous]` is accepted and stored. -/
theorem c7_set_phases_witness :
    (set_phases [Phase.idle] [Phase.simult]).2 = none ∧
    (set_phases [Phase.idle] [Phase.simult]).1 = [Phase.simult] := by
  have h := c7_set_phases [Phase.idle] [Phase.simult]
  have h0 : (set_phases [Phase.idle] [Phase.simult]).2 = none :=
    h.1.mpr (Or.inr (by decide))
  exact ⟨h0, h.2.1 h0⟩

/-! ### Alpha bounds of the interpolator (C8) -/

lemma perform_phase_alpha (d : Durations) (p : Phase) (time : ℚ) (a : FrameState)
    (hd : 0 < duration d p) (h0 : 0 ≤ time) (h1 : time ≤ duration d p)
    (ha : 0 ≤ a.alpha ∧ a.alpha ≤ 1) :
    0 ≤ (perform_phase d p time a).alpha ∧ (perform_phase d p time a).alpha ≤ 1 := by
  have hq : 0 ≤ time / duration d p ∧ time / duration d p ≤ 1 :=
    ⟨div_nonneg h0 (le_of_lt hd), (div_le_one hd).2 h1⟩
  cases p
  · exact ha
  · exact hq
  · exact hq
  · exact ha
  · exact hq

lemma phase_walk_alpha (d : Durations) :
    ∀ (phases : List Phase) (rem : ℚ) (a res : FrameState),
      (∀ p ∈ phases, 0 < duration d p) → 0 ≤ rem →
      0 ≤ a.alpha → a.alpha ≤ 1 →
      phase_walk d phases rem a = some res → 0 ≤ res.alpha ∧ res.alpha ≤ 1 := by
  intro phases
  induction phases with
  | nil =>
      intro rem a res _ _ _ _ h
      simp [phase_walk] at h
  | cons p ps ih =>
      intro rem a res hd hrem ha0 ha1 h
      unfold phase_walk at h
      split_ifs at h with hlt
      · obtain rfl : perform_phase d p rem a = res := by simpa using h
        exact perform_phase_alpha d p rem a (hd p (List.mem_cons_self _ _)) hrem
          (le_of_lt hlt) ⟨ha0, ha1⟩
      · have hd' : 0 < duration d p := hd p (List.mem_cons_self _ _)
        have ha' := perform_phase_alpha d p (duration d p) a hd' (le_of_lt hd')
          le_rfl ⟨ha0, ha1⟩
        exact ih (rem - duration d p) _ res (fun q hq => hd q (List.mem_cons_of_mem _ hq))
          (sub_nonneg.2 (not_lt.1 hlt)) ha'.1 ha'.2 h

lemma calc_alpha_bounds (is_n is_o : Bool) (a0 : ℚ) (a : FrameState)
    (h0 : 0 ≤ a0) (h1 : a0 ≤ 1) (ha0 : 0 ≤ a.alpha) (ha1 : a.alpha ≤ 1) :
    0 ≤ calc_alpha is_n is_o a0 a ∧ calc_alpha is_n is_o a0 a ≤ 1 := by
  cases is_n <;> cases is_o <;>
    cases hadd : a.adding <;> cases hded : a.added <;>
    cases hdel : a.deleting <;> cases hdtd : a.deleted <;>
    simp [calc_alpha, bq, hadd, hded, hdel, hdtd] <;>
    first
      | exact ⟨h0, h1⟩
      | exact ⟨ha0, ha1⟩
      | (constructor <;> nlinarith)

lemma push_node_mem (g : GraphState) (m n : Node) (h : n ∈ (push_node g m).nodes) :
    n ∈ g.nodes ∨ n = m := by
  unfold push_node at h
  split_ifs at h
  · exact Or.inl h
  · rcases List.mem_append.1 h with h | h
    · exact Or.inl h
    · exact Or.inr (by simpa using h)

lemma push_node_edges (g : GraphState) (m : Node) :
    (push_node g m).edges = g.edges := by
  unfold push_node
  split_ifs <;> rfl

lemma fold_push_node_mem (ns : List Node) :
    ∀ (g : GraphState) (n : Node),
      n ∈ (ns.foldl (fun g n0 =>
        if n0.is_new then push_node g { n0 with is_old := false } else g) g).nodes →
      n ∈ g.nodes ∨ ∃ n0 ∈ ns, n = { n0 with is_old := false } := by
  induction ns with
  | nil => exact fun g n h => Or.inl h
  | cons m ms ih =>
      intro g n h
      rcases ih _ n h with h' | ⟨n0, hn0, rfl⟩
      · dsimp only at h'
        split_ifs at h' with hm
        · rcases push_node_mem _ _ _ h' with h'' | rfl
          · exact Or.inl h''
          · exact Or.inr ⟨m, List.mem_cons_self _ _, rfl⟩
        · exact Or.inl h'
      · exact Or.inr ⟨n0, List.mem_cons_of_mem _ hn0, rfl⟩

lemma fold_push_node_edges (ns : List Node) :
    ∀ (g : GraphState),
      (ns.foldl (fun g n0 =>
        if n0.is_new then push_node g { n0 with is_old := false } else g) g).edges =
        g.edges := by
  induction ns with
  | nil => exact fun g => rfl
  | cons m ms ih =>
      intro g
      rw [List.foldl_cons, ih]
      split_ifs
      · exact push_node_edges g _
      · rfl

lemma push_edge_ok (g : GraphState) (e : Edge) (g' : GraphState)
    (h : push_edge g e = .ok g') :
    g'.nodes = g.nodes ∧ ∀ x ∈ g'.edges, x ∈ g.edges ∨ x = e := by
  unfold push_edge at h
  split_ifs at h with he
  · obtain rfl : g = g' := by simpa using h
    exact ⟨rfl, fun x hx => Or.inl hx⟩
  · cases h1 : alookup e.one g.index <;> cases h2 : alookup e.two g.index <;>
      rw [h1, h2] at h
    · simp at h
    · simp at h
    · simp at h
    · have h' := Except.ok.inj h
      subst h'
      refine ⟨rfl, ?_⟩
      intro x hx
      rcases List.mem_append.1 hx with hx | hx
      · exact Or.inl hx
      · exact Or.inr (by simpa using hx)

lemma fold_push_edge_ok (es : List Edge) :
    ∀ (g g' : GraphState),
      (es.foldlM (fun g e =>
        if e.is_new then push_edge g { e with is_old := false } else pure g) g) = .ok g' →
      g'.nodes = g.nodes ∧ ∀ x ∈ g'.edges,
        x ∈ g.edges ∨ ∃ e0 ∈ es, x = { e0 with is_old := false } := by
  induction es with
  | nil =>
      intro g g' h
      obtain rfl : g = g' := by simpa [List.foldlM, pure, Except.pure] using h
      exact ⟨rfl, fun x hx => Or.inl hx⟩
  | cons e es ih =>
      intro g g' h
      rw [List.foldlM_cons] at h
      cases hstep : (if e.is_new then push_edge g { e with is_old := false }
          else (pure g : Except Err GraphState)) with
      | error err =>
          rw [hstep] at h
          simp [Bind.bind, Except.bind] at h
      | ok g1 =>
          rw [hstep] at h
          have h' : (es.foldlM (fun g e =>
              if e.is_new then push_edge g { e with is_old := false } else pure g) g1) = .ok g' := by
            simpa [Bind.bind, Except.bind] using h
          obtain ⟨hn, he⟩ := ih g1 g' h'
          split_ifs at hstep with hnew
          · obtain ⟨hn1, he1⟩ := push_edge_ok g _ g1 hstep
            refine ⟨hn.trans hn1, ?_⟩
            intro x hx
            rcases he x hx with hx' | ⟨e0, he0, rfl⟩
            · rcases he1 x hx' with h'' | rfl
              · exact Or.inl h''
              · exact Or.inr ⟨e, List.mem_cons_self _ _, rfl⟩
            · exact Or.inr ⟨e0, List.mem_cons_of_mem _ he0, rfl⟩
          · obtain rfl : g = g1 := by simpa [pure, Except.pure] using hstep
            refine ⟨hn, ?_⟩
            intro x hx
            rcases he x hx with hx' | ⟨e0, he0, hx''⟩
            · exact Or.inl hx'
            · exact Or.inr ⟨e0, List.mem_cons_of_mem _ he0, hx''⟩

lemma assemble_frame_alpha (a : FrameState) (cur next frame : GraphState)
    (ha0 : 0 ≤ a.alpha) (ha1 : a.alpha ≤ 1)
    (hcn : ∀ n ∈ cur.nodes, 0 ≤ n.alpha ∧ n.alpha ≤ 1)
    (hce : ∀ e ∈ cur.edges, 0 ≤ e.alpha ∧ e.alpha ≤ 1)
    (hnn : ∀ n ∈ next.nodes, 0 ≤ n.alpha ∧ n.alpha ≤ 1)
    (hne : ∀ e ∈ next.edges, 0 ≤ e.alpha ∧ e.alpha ≤ 1)
    (h : assemble_frame a cur next = .ok frame) :
    (∀ n ∈ frame.nodes, 0 ≤ n.alpha ∧ n.alpha ≤ 1) ∧
    (∀ e ∈ frame.edges, 0 ≤ e.alpha ∧ e.alpha ≤ 1) := by
  unfold assemble_frame at h
  dsimp only at h
  cases hc3 : (next.edges.foldlM (fun g e =>
      if e.is_new then push_edge g { e with is_old := false } else pure g)
      (next.nodes.foldl (fun g n =>
        if n.is_new then push_node g { n with is_old := false } else g)
        { cur with nodes := cur.nodes.map (fun n => { n with is_new := false }),
                   edges := cur.edges.map (fun e => { e with is_new := false }) })) with
  | error err =>
      rw [hc3] at h
      simp [Bind.bind, Except.bind] at h
  | ok cur3 =>
      rw [hc3] at h
      obtain rfl : frame =
          (let withPos : GraphState :=
            { cur3 with nodes := cur3.nodes.map (fun n =>
                match node_at next n.id with
                | some nx =>
                    { n with pos := ⟨lerp n.pos.x nx.pos.x a.interpolation,
                                     lerp n.pos.y nx.pos.y a.interpolation⟩ }
                | none => n) }
          { withPos with
            nodes := withPos.nodes.map (fun n =>
              { n with alpha := calc_alpha n.is_new n.is_old n.alpha a }),
            edges := withPos.edges.map (fun e =>
              { e with alpha := calc_alpha e.is_new e.is_old e.alpha a }) }) := by
        simpa [Bind.bind, Except.bind, pure, Except.pure] using h.symm
      obtain ⟨hn3, he3⟩ := fold_push_edge_ok next.edges _ cur3 hc3
      constructor
      · intro n hn
        simp only [List.map_map, List.mem_map] at hn
        obtain ⟨n0, hn0, rfl⟩ := hn
        dsimp only [Function.comp]
        have hb : 0 ≤ n0.alpha ∧ n0.alpha ≤ 1 := by
          rw [hn3] at hn0
          rcases fold_push_node_mem next.nodes _ n0 hn0 with hmem | ⟨m, hm, rfl⟩
          · obtain ⟨m, hm, rfl⟩ := List.mem_map.1 hmem
            exact hcn m hm
          · exact hnn m hm
        cases hx : node_at next n0.id <;>
          simp only [hx] <;>
          exact calc_alpha_bounds _ _ _ a hb.1 hb.2 ha0 ha1
      · intro e he
        simp only [List.mem_map] at he
        obtain ⟨e0, he0, rfl⟩ := he
        have hb : 0 ≤ e0.alpha ∧ e0.alpha ≤ 1 := by
          rcases he3 e0 he0 with hmem | ⟨m, hm, rfl⟩
          · rw [fold_push_node_edges] at hmem
            obtain ⟨m, hm, rfl⟩ := List.mem_map.1 hmem
            exact hce m hm
          · exact hne m hm
        exact calc_alpha_bounds _ _ _ a hb.1 hb.2 ha0 ha1

lemma transition_duration_nonneg (d : Durations) (phases : List Phase)
    (hd : ∀ p ∈ phases, 0 < duration d p) : 0 ≤ transition_duration d phases := by
  unfold transition_duration
  suffices hgen : ∀ (ps : List Phase) (acc : ℚ), (∀ p ∈ ps, 0 < duration d p) → 0 ≤ acc →
      0 ≤ ps.foldl (fun acc p => acc + duration d p) acc from
    hgen phases 0 hd le_rfl
  intro ps
  induction ps with
  | nil => exact fun acc _ h => h
  | cons p ps ih =>
      intro acc hps hacc
      exact ih (acc + duration d p) (fun q hq => hps q (List.mem_cons_of_mem _ hq))
        (by have := hps p (List.mem_cons_self _ _); linarith)

lemma floor_term_le (t td : ℚ) (ht : 0 ≤ t) (htd : 0 ≤ td) :
    (⌊t / td⌋.toNat : ℚ) * td ≤ t := by
  rcases eq_or_lt_of_le htd with rfl | hpos
  · simpa using ht
  · have hq : 0 ≤ t / td := div_nonneg ht htd
    have h2 : (0 : ℤ) ≤ ⌊t / td⌋ := Int.floor_nonneg.2 hq
    have hcast : ((⌊t / td⌋.toNat : ℕ) : ℚ) = ((⌊t / td⌋ : ℤ) : ℚ) := by
      rw_mod_cast [Int.toNat_of_nonneg h2]
    rw [hcast]
    calc ((⌊t / td⌋ : ℤ) : ℚ) * td ≤ (t / td) * td := by
          exact mul_le_mul_of_nonneg_right (Int.floor_le _) htd
      _ = t := div_mul_cancel₀ t (ne_of_gt hpos)

lemma getD_mem {α : Type} (l : List α) (i : ℕ) (dflt : α) (h : i < l.length) :
    l.getD i dflt ∈ l := by
  rw [List.getD_eq_getElem?_getD, List.getElem?_eq_getElem h]
  exact List.getElem_mem _

/-- C8: on any states whose element alphas lie in `[0,1]` (in particular the
default 1.0 the builder and layout leave), every frame the interpolator
produces has all node and edge alphas in `[0,1]` (durations positive, as the
defaults are). -/
theorem c8_alpha_bounds (d : Durations) (phases : List Phase)
    (states : List GraphState) (t : ℚ) (frame : GraphState)
    (hd : ∀ p ∈ phases, 0 < duration d p)
    (halpha : ∀ st ∈ states,
      (∀ n ∈ st.nodes, 0 ≤ n.alpha ∧ n.alpha ≤ 1) ∧
      (∀ e ∈ st.edges, 0 ≤ e.alpha ∧ e.alpha ≤ 1))
    (h : interpolate d phases states t = .ok frame) :
    (∀ n ∈ frame.nodes, 0 ≤ n.alpha ∧ n.alpha ≤ 1) ∧
    (∀ e ∈ frame.edges, 0 ≤ e.alpha ∧ e.alpha ≤ 1) := by
  unfold interpolate at h
  by_cases h1 : t < 0
  · rw [if_pos h1] at h
    exact absurd h (by simp)
  rw [if_neg h1] at h
  by_cases h2 : t > lengthQ d phases states
  · rw [if_pos h2] at h
    exact absurd h (by simp)
  rw [if_neg h2] at h
  by_cases h3 : states.isEmpty
  · rw [if_pos h3] at h
    obtain rfl := Except.ok.inj h
    exact ⟨fun n hn => absurd hn (List.not_mem_nil n),
      fun e he2 => absurd he2 (List.not_mem_nil e)⟩
  · rw [if_neg h3] at h
    dsimp only at h
    cases hw : phase_walk d phases
        (t - (⌊t / transition_duration d phases⌋.toNat : ℚ) * transition_duration d phases)
        {} with
    | none =>
        rw [hw] at h
        exact absurd h (by simp)
    | some a =>
        rw [hw] at h
        have ht0 : 0 ≤ t := not_lt.1 h1
        have htd : 0 ≤ transition_duration d phases :=
          transition_duration_nonneg d phases hd
        have hval : 0 ≤ t - (⌊t / transition_duration d phases⌋.toNat : ℚ)
            * transition_duration d phases :=
          sub_nonneg.2 (floor_term_le t _ ht0 htd)
        have ha := phase_walk_alpha d phases _ {} a hd hval le_rfl (by norm_num) hw
        have hlen : 0 < states.length := by
          cases states with
          | nil => simp [List.isEmpty] at h3
          | cons st sts => simp
        have hm1 : states.getD
            (min (⌊t / transition_duration d phases⌋.toNat) (states.length - 1)) {} ∈ states :=
          getD_mem _ _ _ (lt_of_le_of_lt (min_le_right _ _) (by omega))
        have hm2 : states.getD
            (min (⌈t / transition_duration d phases⌉.toNat) (states.length - 1)) {} ∈ states :=
          getD_mem _ _ _ (lt_of_le_of_lt (min_le_right _ _) (by omega))
        exact assemble_frame_alpha a _ _ frame ha.1 ha.2
          (halpha _ hm1).1 (halpha _ hm1).2 (halpha _ hm2).1 (halpha _ hm2).2 h

/-- Witness for C8: one one-node keyframe at `t = 0` with the default
durations; the produced frame keeps the node at alpha 1. -/
theorem c8_alpha_bounds_witness :
    (∀ p ∈ c8_phases, 0 < duration {} p)
    ∧ (∀ st ∈ c8_states,
        (∀ n ∈ st.nodes, 0 ≤ n.alpha ∧ n.alpha ≤ 1) ∧
        (∀ e ∈ st.edges, 0 ≤ e.alpha ∧ e.alpha ≤ 1))
    ∧ interpolate {} c8_phases c8_states 0 = .ok c8_frame
    ∧ ((∀ n ∈ c8_frame.nodes, 0 ≤ n.alpha ∧ n.alpha ≤ 1)
      ∧ (∀ e ∈ c8_frame.edges, 0 ≤ e.alpha ∧ e.alpha ≤ 1)) := by
  have hd : ∀ p ∈ c8_phases, 0 < duration {} p := by
    intro p hp
    fin_cases hp <;> norm_num [duration]
  have hal : ∀ st ∈ c8_states,
      (∀ n ∈ st.nodes, 0 ≤ n.alpha ∧ n.alpha ≤ 1) ∧
      (∀ e ∈ st.edges, 0 ≤ e.alpha ∧ e.alpha ≤ 1) := by
    intro st hst
    obtain rfl : st = { nodes := [{ id := 5 }], edges := [], index := [(5, [])] } := by
      simpa [c8_states] using hst
    refine ⟨?_, ?_⟩
    · intro n hn
      obtain rfl : n = { id := 5 } := by simpa using hn
      norm_num
    · intro e he2
      exact absurd he2 (List.not_mem_nil e)
  have hfr : interpolate {} c8_phases c8_states 0 = .ok c8_frame := by
    unfold interpolate
    rw [if_neg (by norm_num), if_neg (by
      unfold lengthQ transition_duration duration c8_states c8_phases
      norm_num), if_neg (by decide)]
    dsimp only
    rw [show transition_duration {} c8_phases = 2 from by
      unfold transition_duration duration c8_phases
      norm_num]
    rw [show ((0:ℚ)/2) = 0 from by norm_num, Int.floor_zero]
    rw [show ((0:ℤ).toNat) = 0 from rfl]
    rw [show ((0:ℚ) - (0:ℕ) * 2) = 0 from by norm_num]
    rw [show phase_walk {} c8_phases 0 {} = some {} from by
      unfold c8_phases
      unfold phase_walk
      rw [if_pos (by norm_num [duration])]
      rfl]
    show assemble_frame {} (c8_states.getD (min 0 (c8_states.length - 1)) {})
        (c8_states.getD (min 0 (c8_states.length - 1)) {}) = _
    rw [show (min 0 (c8_states.length - 1)) = 0 from by decide]
    rw [show c8_states.getD 0 {} =
      { nodes := [{ id := 5 }], edges := [], index := [(5, [])] } from by decide]
    unfold assemble_frame c8_frame
    dsimp only
    simp only [Bind.bind, Except.bind, List.foldlM, List.foldl, pure, Except.pure]
    simp [node_at, calc_alpha, lerp, bq]
  exact ⟨hd, hal, hfr, c8_alpha_bounds {} c8_phases c8_states 0 c8_frame hd hal hfr⟩

/-- C10 counterexample: with an empty states vector the underflowed length is
`(2^64 − 1) · transition_duration`, which is huge but finite: at
`t = 2^70` (with the default phased sequence, transition duration 2) the
interpolator still raises `OutOfRange`, so it is not the case that no
non-negative time raises. -/
theorem c10_empty_states_counterexample :
    interpolate {} [Phase.idle, Phase.disappear, Phase.morph, Phase.appear] []
      (2 ^ 70) = .error .outOfRange := by
  unfold interpolate
  rw [if_neg (by norm_num), if_pos (by
    show lengthQ {} [Phase.idle, Phase.disappear, Phase.morph, Phase.appear] [] < 2 ^ 70
    unfold lengthQ transition_duration duration
    norm_num)]

/-- C10 amended: with an empty states vector, for every time `t` with
`0 ≤ t ≤ (2^64 − 1) · transition_duration` (the underflowed bound),
`operator()` raises nothing and returns an empty `graph_state`;
larger times still raise `OutOfRange`. -/
theorem c10_empty_states_amended (d : Durations) (phases : List Phase) (t : ℚ)
    (h0 : 0 ≤ t) (h1 : t ≤ lengthQ d phases []) :
    interpolate d phases [] t = .ok {} := by
  unfold interpolate
  rw [if_neg (not_lt.mpr h0), if_neg (not_lt.mpr h1)]
  rfl

/-- Witness for the amended C10 at `t = 5` with the default durations and
phase sequence. -/
theorem c10_empty_states_amended_witness :
    (0 : ℚ) ≤ 5 ∧
      (5 : ℚ) ≤ lengthQ {} [Phase.idle, Phase.disappear, Phase.morph, Phase.appear] [] ∧
      interpolate {} [Phase.idle, Phase.disappear, Phase.morph, Phase.appear] [] 5 = .ok {} :=
  ⟨by norm_num, by unfold lengthQ transition_duration duration; norm_num,
    c10_empty_states_amended {} [Phase.idle, Phase.disappear, Phase.morph, Phase.appear] 5
      (by norm_num) (by unfold lengthQ transition_duration duration; norm_num)⟩

/-- Membership of a key in the association list is what `alookup` answers. -/
lemma alookup_isSome {β : Type} (k : ℕ) (l : List (ℕ × β)) :
    (alookup k l).isSome = true ↔ k ∈ l.map Prod.fst := by
  induction l with
  | nil => simp [alookup]
  | cons kv rest ih =>
      obtain ⟨k', v⟩ := kv
      by_cases hk : k' = k
      · subst hk
        simp [alookup]
      · rw [show alookup k ((k', v) :: rest) = alookup k rest from by
          simp [alookup, hk]]
        rw [ih, List.map_cons, List.mem_cons]
        have hk2 : ¬ k = k' := fun h => hk h.symm
        simp [hk2]

/-- Characterization of `node_exists` by the id list. -/
lemma node_exists_iff_mem (g : GraphState) (i : ℕ) :
    node_exists g i = true ↔ i ∈ g.nodes.map Node.id := by
  unfold node_exists
  rw [List.any_eq_true]
  constructor
  · rintro ⟨n, hn, hni⟩
    exact List.mem_map.2 ⟨n, hn, by simpa using hni⟩
  · rintro h
    obtain ⟨n, hn, rfl⟩ := List.mem_map.1 h
    exact ⟨n, hn, by simp⟩

/-- The adjacency rewrites of `push_edge` keep the key sequence. -/
lemma map_keys_cond {β : Type} (l : List (ℕ × β)) (t : ℕ) (f : ℕ × β → β) :
    (l.map (fun kv => if kv.1 = t then (kv.1, f kv) else kv)).map Prod.fst =
      l.map Prod.fst := by
  rw [List.map_map]
  refine List.map_congr_left ?_
  intro kv _
  by_cases h : kv.1 = t <;> simp [h]

/-- Folding `push_node` over fresh, distinct ids appends every node and opens
its adjacency entry, as in the node statements of a parsed state block. -/
lemma fold_push_node_all {α : Type} (cnv : α → Node) (ns : List α) :
    ∀ (g : GraphState),
      (∀ a ∈ ns, node_exists g (cnv a).id = false) →
      (ns.map (fun a => (cnv a).id)).Nodup →
      ns.foldl (fun g a => push_node g (cnv a)) g =
        { nodes := g.nodes ++ ns.map cnv, edges := g.edges,
          index := g.index ++ ns.map (fun a => ((cnv a).id, ([] : NodeEdges))) } := by
  induction ns with
  | nil => intro g _ _; simp
  | cons a ns ih =>
      intro g hfresh hnd
      rw [List.foldl_cons]
      have hn : node_exists g (cnv a).id = false := hfresh a (List.mem_cons_self _ _)
      have hpush : push_node g (cnv a) =
          { nodes := g.nodes ++ [cnv a], edges := g.edges,
            index := g.index ++ [((cnv a).id, ([] : NodeEdges))] } := by
        simp [push_node, hn]
      rw [List.map_cons] at hnd
      obtain ⟨hnotin, hnd2⟩ := List.nodup_cons.1 hnd
      have hfresh2 : ∀ b ∈ ns, node_exists (push_node g (cnv a)) (cnv b).id = false := by
        intro b hb
        have h1 : node_exists g (cnv b).id = false := hfresh b (List.mem_cons_of_mem _ hb)
        have h2 : (cnv a).id ≠ (cnv b).id := by
          intro hEq
          exact hnotin (hEq ▸ List.mem_map_of_mem (fun x => (cnv x).id) hb)
        rw [hpush]
        simp only [node_exists] at h1 ⊢
        rw [List.any_append, h1]
        simp [h2]
      rw [ih _ hfresh2 hnd2, hpush]
      simp

/-- One `push_edge` with a fresh id and both endpoints indexed succeeds,
appends the edge and keeps the adjacency keys. -/
lemma push_edge_fresh (g : GraphState) (e : Edge)
    (hid : edge_exists g e.id = false)
    (h1 : e.one ∈ g.index.map Prod.fst) (h2 : e.two ∈ g.index.map Prod.fst) :
    ∃ g', push_edge g e = .ok g' ∧ g'.nodes = g.nodes ∧ g'.edges = g.edges ++ [e] ∧
      g'.index.map Prod.fst = g.index.map Prod.fst := by
  obtain ⟨v1, hv1⟩ := Option.isSome_iff_exists.1 ((alookup_isSome e.one g.index).2 h1)
  obtain ⟨v2, hv2⟩ := Option.isSome_iff_exists.1 ((alookup_isSome e.two g.index).2 h2)
  unfold push_edge
  rw [hid, if_neg (by simp), hv1, hv2]
  refine ⟨_, rfl, rfl, rfl, ?_⟩
  dsimp only
  rw [map_keys_cond, map_keys_cond]

/-- Folding `push_edge` over fresh, distinct ids with indexed endpoints
succeeds and appends every edge, as in the edge statements of a parsed state
block. -/
lemma fold_push_edge_all {α : Type} (cnv : α → Edge) (es : List α) :
    ∀ (g : GraphState),
      (∀ a ∈ es, edge_exists g (cnv a).id = false) →
      (es.map (fun a => (cnv a).id)).Nodup →
      (∀ a ∈ es, (cnv a).one ∈ g.index.map Prod.fst ∧
        (cnv a).two ∈ g.index.map Prod.fst) →
      ∃ g', es.foldlM (fun g a => push_edge g (cnv a)) g = .ok g' ∧
        g'.nodes = g.nodes ∧ g'.edges = g.edges ++ es.map cnv ∧
        g'.index.map Prod.fst = g.index.map Prod.fst := by
  induction es with
  | nil =>
      intro g _ _ _
      exact ⟨g, by simp [List.foldlM, pure, Except.pure], rfl, by simp, rfl⟩
  | cons a es ih =>
      intro g hfresh hnd hend
      obtain ⟨hm1, hm2⟩ := hend a (List.mem_cons_self _ _)
      have hid := hfresh a (List.mem_cons_self _ _)
      obtain ⟨g1, hstep, hn1, he1, hk1⟩ := push_edge_fresh g (cnv a) hid hm1 hm2
      rw [List.map_cons] at hnd
      obtain ⟨hnotin, hnd2⟩ := List.nodup_cons.1 hnd
      have hfresh2 : ∀ b ∈ es, edge_exists g1 (cnv b).id = false := by
        intro b hb
        have hg : edge_exists g (cnv b).id = false := hfresh b (List.mem_cons_of_mem _ hb)
        have hne : (cnv a).id ≠ (cnv b).id := by
          intro hEq
          exact hnotin (hEq ▸ List.mem_map_of_mem (fun x => (cnv x).id) hb)
        simp only [edge_exists] at hg ⊢
        rw [he1, List.any_append, hg]
        simp [hne]
      have hend2 : ∀ b ∈ es, (cnv b).one ∈ g1.index.map Prod.fst ∧
          (cnv b).two ∈ g1.index.map Prod.fst := by
        intro b hb
        rw [hk1]
        exact hend b (List.mem_cons_of_mem _ hb)
      obtain ⟨g', hfold, hn, he, hk⟩ := ih g1 hfresh2 hnd2 hend2
      refine ⟨g', ?_, hn.trans hn1, ?_, hk.trans hk1⟩
      · rw [List.foldlM_cons, hstep]
        simpa [Bind.bind, Except.bind] using hfold
      · rw [he, he1]
        simp

/-- Round trip of one state block: parsing what `operator<<` emits for a
well-formed state rebuilds its nodes (positions at output precision, default
alpha and flags) and its edges, in order. -/
lemma parse_serialize_state (st : GraphState)
    (hnd : (st.nodes.map Node.id).Nodup)
    (hed : (st.edges.map Edge.id).Nodup)
    (hend : ∀ e ∈ st.edges, node_exists st e.one = true ∧ node_exists st e.two = true) :
    ∃ g, parse_state (serialize_state st) = .ok g ∧
      g.nodes = st.nodes.map (fun n =>
        ({ id := n.id, pos := ⟨fmt6 n.pos.x, fmt6 n.pos.y⟩ } : Node)) ∧
      g.edges = st.edges.map (fun e =>
        ({ id := e.id, one := e.one, two := e.two } : Edge)) := by
  have hids : (st.nodes.map (fun n => (⟨n.id, fmt6 n.pos.x, fmt6 n.pos.y⟩ : NodeRec))).map
      (fun nr => (({ id := nr.nid, pos := ⟨nr.x, nr.y⟩ } : Node)).id) =
        st.nodes.map Node.id := by
    rw [List.map_map]
    rfl
  have hR1 : (st.nodes.map (fun n => (⟨n.id, fmt6 n.pos.x, fmt6 n.pos.y⟩ : NodeRec))).foldl
      (fun g nr => push_node g { id := nr.nid, pos := ⟨nr.x, nr.y⟩ }) {} =
        { nodes := st.nodes.map (fun n =>
            ({ id := n.id, pos := ⟨fmt6 n.pos.x, fmt6 n.pos.y⟩ } : Node)),
          edges := [],
          index := st.nodes.map (fun n => (n.id, ([] : NodeEdges))) } := by
    rw [fold_push_node_all (fun nr : NodeRec => ({ id := nr.nid, pos := ⟨nr.x, nr.y⟩ } : Node))
      _ {} (fun a _ => rfl) (by rw [hids]; exact hnd)]
    simp [List.map_map]
  have hkeys : (st.nodes.map (fun n => (n.id, ([] : NodeEdges)))).map Prod.fst =
      st.nodes.map Node.id := by
    rw [List.map_map]
    rfl
  have hidsE : (st.edges.map (fun e => (⟨e.id, e.one, e.two⟩ : EdgeRec))).map
      (fun er => (({ id := er.eid, one := er.one, two := er.two } : Edge)).id) =
        st.edges.map Edge.id := by
    rw [List.map_map]
    rfl
  have hendE : ∀ a ∈ st.edges.map (fun e => (⟨e.id, e.one, e.two⟩ : EdgeRec)),
      a.one ∈ (st.nodes.map (fun n => (n.id, ([] : NodeEdges)))).map Prod.fst ∧
      a.two ∈ (st.nodes.map (fun n => (n.id, ([] : NodeEdges)))).map Prod.fst := by
    intro a ha
    obtain ⟨e, he, rfl⟩ := List.mem_map.1 ha
    dsimp only
    rw [hkeys]
    exact ⟨(node_exists_iff_mem st e.one).1 (hend e he).1,
      (node_exists_iff_mem st e.two).1 (hend e he).2⟩
  obtain ⟨g, hfold2, hgn, hge, hgk⟩ := fold_push_edge_all
    (fun er : EdgeRec => ({ id := er.eid, one := er.one, two := er.two } : Edge))
    (st.edges.map (fun e => (⟨e.id, e.one, e.two⟩ : EdgeRec)))
    { nodes := st.nodes.map (fun n =>
        ({ id := n.id, pos := ⟨fmt6 n.pos.x, fmt6 n.pos.y⟩ } : Node)),
      edges := [],
      index := st.nodes.map (fun n => (n.id, ([] : NodeEdges))) }
    (fun a _ => rfl) (by rw [hidsE]; exact hed) hendE
  refine ⟨g, ?_, ?_, ?_⟩
  · unfold parse_state serialize_state
    dsimp only
    rw [hR1]
    exact hfold2
  · exact hgn
  · rw [hge]
    rw [List.nil_append, List.map_map]
    rfl

/-- Round trip of the state sequence, before the flag rebuild. -/
lemma mapM_parse_serialize (states : List GraphState)
    (h : ∀ st ∈ states, (st.nodes.map Node.id).Nodup ∧ (st.edges.map Edge.id).Nodup ∧
      ∀ e ∈ st.edges, node_exists st e.one = true ∧ node_exists st e.two = true) :
    ∃ sts, (states.map serialize_state).mapM parse_state = .ok sts ∧
      sts.length = states.length ∧
      ∀ t, ((sts.getD t {}).nodes.map (fun n => (n.id, n.pos)) =
          (states.getD t {}).nodes.map (fun n =>
            (n.id, (⟨fmt6 n.pos.x, fmt6 n.pos.y⟩ : Coords))))
        ∧ ((sts.getD t {}).edges.map (fun e => (e.id, e.one, e.two)) =
          (states.getD t {}).edges.map (fun e => (e.id, e.one, e.two))) := by
  induction states with
  | nil =>
      refine ⟨[], by simp only [List.map_nil]; rw [List.mapM_nil]; simp [pure, Except.pure], rfl, ?_⟩
      intro t
      constructor <;> simp [List.getD]
  | cons st rest ih =>
      obtain ⟨h1, h2, h3⟩ := h st (List.mem_cons_self _ _)
      obtain ⟨g, hok, hgn, hge⟩ := parse_serialize_state st h1 h2 h3
      obtain ⟨sts, hfold, hlen, hproj⟩ := ih (fun s hs => h s (List.mem_cons_of_mem _ hs))
      refine ⟨g :: sts, ?_, by simp [hlen], ?_⟩
      · rw [List.map_cons, List.mapM_cons, hok, hfold]
        simp [Bind.bind, Except.bind, pure, Except.pure]
      · intro t
        cases t with
        | zero =>
            constructor
            · rw [show (g :: sts).getD 0 {} = g from rfl,
                show (st :: rest).getD 0 {} = st from rfl, hgn, List.map_map]
              rfl
            · rw [show (g :: sts).getD 0 {} = g from rfl,
                show (st :: rest).getD 0 {} = st from rfl, hge, List.map_map]
              rfl
        | succ t =>
            simpa using hproj t

/-- `node_exists` only reads the id projection. -/
lemma node_exists_obs (g h : GraphState)
    (hg : g.nodes.map (fun n => (n.id, n.pos)) = h.nodes.map (fun n => (n.id, n.pos)))
    (i : ℕ) : node_exists g i = node_exists h i := by
  have hany : ∀ (l : List Node),
      (l.map (fun n => (n.id, n.pos))).any (fun x => x.1 = i) =
        l.any (fun n => n.id = i) := by
    intro l
    induction l with
    | nil => rfl
    | cons a l ih => simp [List.any_cons, ih]
  unfold node_exists
  rw [← hany, ← hany, hg]

/-- `edge_exists` only reads the id projection. -/
lemma edge_exists_obs (g h : GraphState)
    (hg : g.edges.map (fun e => (e.id, e.one, e.two)) =
      h.edges.map (fun e => (e.id, e.one, e.two)))
    (i : ℕ) : edge_exists g i = edge_exists h i := by
  have hany : ∀ (l : List Edge),
      (l.map (fun e => (e.id, e.one, e.two))).any (fun x => x.1 = i) =
        l.any (fun e => e.id = i) := by
    intro l
    induction l with
    | nil => rfl
    | cons a l ih => simp [List.any_cons, ih]
  unfold edge_exists
  rw [← hany, ← hany, hg]

/-- The node observables after the flag pass, as a function of the state's
(id, position) projection and the neighbor membership. -/
lemma flag_nodes_obs (P : List GraphState) (t : ℕ) :
    (flag_state P t).nodes.map node_obs =
      ((P.getD t {}).nodes.map (fun n => (n.id, n.pos))).map (fun x =>
        (x.1, x.2, decide (0 < t) && !(node_exists (P.getD (t - 1) {}) x.1),
          decide (t < P.length - 1) && !(node_exists (P.getD (t + 1) {}) x.1))) := by
  unfold flag_state node_obs
  dsimp only
  rw [List.map_map, List.map_map]
  rfl

/-- The edge observables after the flag pass, as a function of the state's
(id, endpoints) projection and the neighbor membership. -/
lemma flag_edges_obs (P : List GraphState) (t : ℕ) :
    (flag_state P t).edges.map edge_obs =
      ((P.getD t {}).edges.map (fun e => (e.id, e.one, e.two))).map (fun x =>
        (x.1, x.2.1, x.2.2, decide (0 < t) && !(edge_exists (P.getD (t - 1) {}) x.1),
          decide (t < P.length - 1) && !(edge_exists (P.getD (t + 1) {}) x.1))) := by
  unfold flag_state edge_obs
  dsimp only
  rw [List.map_map, List.map_map]
  rfl

/-- Two state sequences with the same (id, position) and (id, endpoints)
projections get identical observables from `set_bool_values`. -/
lemma set_bool_obs (P B : List GraphState)
    (hlen : P.length = B.length)
    (hn : ∀ t, (P.getD t {}).nodes.map (fun n => (n.id, n.pos)) =
      (B.getD t {}).nodes.map (fun n => (n.id, n.pos)))
    (he : ∀ t, (P.getD t {}).edges.map (fun e => (e.id, e.one, e.two)) =
      (B.getD t {}).edges.map (fun e => (e.id, e.one, e.two))) :
    (set_bool_values P).map state_obs = (set_bool_values B).map state_obs := by
  have hx : ∀ (s : ℕ) (i : ℕ),
      node_exists (P.getD s {}) i = node_exists (B.getD s {}) i :=
    fun s i => node_exists_obs _ _ (hn s) i
  have hy : ∀ (s : ℕ) (i : ℕ),
      edge_exists (P.getD s {}) i = edge_exists (B.getD s {}) i :=
    fun s i => edge_exists_obs _ _ (he s) i
  unfold set_bool_values
  rw [hlen, List.map_map, List.map_map]
  refine List.map_congr_left ?_
  intro t _
  show state_obs (flag_state P t) = state_obs (flag_state B t)
  unfold state_obs
  have hNodes : (flag_state P t).nodes.map node_obs =
      (flag_state B t).nodes.map node_obs := by
    rw [flag_nodes_obs, flag_nodes_obs, hn t, hlen]
    refine List.map_congr_left ?_
    intro x _
    rw [hx (t - 1) x.1, hx (t + 1) x.1]
  have hEdges : (flag_state P t).edges.map edge_obs =
      (flag_state B t).edges.map edge_obs := by
    rw [flag_edges_obs, flag_edges_obs, he t, hlen]
    refine List.map_congr_left ?_
    intro x _
    rw [hy (t - 1) x.1, hy (t + 1) x.1]
  rw [hNodes, hEdges]

/-- The flag pass keeps the node id sequence. -/
lemma flag_state_node_ids (b : List GraphState) (t : ℕ) :
    (flag_state b t).nodes.map Node.id = (b.getD t {}).nodes.map Node.id := by
  unfold flag_state
  dsimp only
  rw [List.map_map]
  rfl

/-- The flag pass keeps the edge id sequence. -/
lemma flag_state_edge_ids (b : List GraphState) (t : ℕ) :
    (flag_state b t).edges.map Edge.id = (b.getD t {}).edges.map Edge.id := by
  unfold flag_state
  dsimp only
  rw [List.map_map]
  rfl

/-- The flag pass keeps positions, hence their output rounding. -/
lemma flag_state_nodes_fmt (b : List GraphState) (t : ℕ) :
    (flag_state b t).nodes.map (fun n => (n.id, (⟨fmt6 n.pos.x, fmt6 n.pos.y⟩ : Coords))) =
      (b.getD t {}).nodes.map (fun n => (n.id, (⟨fmt6 n.pos.x, fmt6 n.pos.y⟩ : Coords))) := by
  unfold flag_state
  dsimp only
  rw [List.map_map]
  rfl

/-- The flag pass keeps the edge endpoint projection. -/
lemma flag_state_edges_proj (b : List GraphState) (t : ℕ) :
    (flag_state b t).edges.map (fun e => (e.id, e.one, e.two)) =
      (b.getD t {}).edges.map (fun e => (e.id, e.one, e.two)) := by
  unfold flag_state
  dsimp only
  rw [List.map_map]
  rfl

/-- `getD` within bounds is a member. -/
lemma getD_mem_of_lt (b : List GraphState) (t : ℕ) (ht : t < b.length) :
    b.getD t {} ∈ b := by
  rw [List.getD_eq_getElem b {} ht]
  exact List.getElem_mem _

/-- C9 (amended): for every built keyframe sequence (`set_bool_values` over
well-formed states: per state, distinct node ids, distinct edge ids, edge
endpoints present) whose node coordinates are exactly representable at the
6-significant-digit output precision, parsing the serialized text yields
states identical to the original's: the same node and edge ids in order, the
same positions, and the same is_new/is_old flags after the rebuild.  (Without
the representability hypothesis the claim fails: see the counterexample.) -/
theorem c9_roundtrip_amended (base : List GraphState)
    (hnd : ∀ st ∈ base, (st.nodes.map Node.id).Nodup)
    (hed : ∀ st ∈ base, (st.edges.map Edge.id).Nodup)
    (hend : ∀ st ∈ base, ∀ e ∈ st.edges,
      node_exists st e.one = true ∧ node_exists st e.two = true)
    (hfmt : ∀ st ∈ base, ∀ n ∈ st.nodes,
      fmt6 n.pos.x = n.pos.x ∧ fmt6 n.pos.y = n.pos.y) :
    ∃ out, parseDG (serializeDG (set_bool_values base)) = .ok out ∧
      out.map state_obs = (set_bool_values base).map state_obs := by
  have hwf : ∀ st ∈ set_bool_values base,
      (st.nodes.map Node.id).Nodup ∧ (st.edges.map Edge.id).Nodup ∧
      ∀ e ∈ st.edges, node_exists st e.one = true ∧ node_exists st e.two = true := by
    intro st hst
    unfold set_bool_values at hst
    obtain ⟨t, ht, rfl⟩ := List.mem_map.1 hst
    have ht2 : t < base.length := List.mem_range.1 ht
    have hb : base.getD t {} ∈ base := getD_mem_of_lt base t ht2
    refine ⟨?_, ?_, ?_⟩
    · rw [flag_state_node_ids]
      exact hnd _ hb
    · rw [flag_state_edge_ids]
      exact hed _ hb
    · intro e he
      unfold flag_state at he
      dsimp only at he
      obtain ⟨e0, he0, rfl⟩ := List.mem_map.1 he
      rw [node_exists_flag_state, node_exists_flag_state]
      exact hend _ hb e0 he0
  obtain ⟨sts, hok, hlenp, hproj⟩ := mapM_parse_serialize (set_bool_values base) hwf
  have hlen2 : sts.length = base.length := by
    rw [hlenp, length_set_bool_values]
  refine ⟨set_bool_values sts, ?_, ?_⟩
  · unfold parseDG serializeDG
    rw [hok]
    simp [Bind.bind, Except.bind, pure, Except.pure]
  · have hnodes : ∀ t, (sts.getD t {}).nodes.map (fun n => (n.id, n.pos)) =
        (base.getD t {}).nodes.map (fun n => (n.id, n.pos)) := by
      intro t
      rcases Nat.lt_or_ge t base.length with ht | ht
      · rw [(hproj t).1, getD_set_bool_values base t ht, flag_state_nodes_fmt]
        refine List.map_congr_left ?_
        intro n hn
        obtain ⟨hfx, hfy⟩ := hfmt _ (getD_mem_of_lt base t ht) n hn
        rw [hfx, hfy]
      · rw [List.getD_eq_default _ _ (le_of_eq_of_le hlen2 ht),
          List.getD_eq_default _ _ ht]
    have hedges : ∀ t, (sts.getD t {}).edges.map (fun e => (e.id, e.one, e.two)) =
        (base.getD t {}).edges.map (fun e => (e.id, e.one, e.two)) := by
      intro t
      rcases Nat.lt_or_ge t base.length with ht | ht
      · rw [(hproj t).2, getD_set_bool_values base t ht, flag_state_edges_proj]
      · rw [List.getD_eq_default _ _ (le_of_eq_of_le hlen2 ht),
          List.getD_eq_default _ _ ht]
    exact set_bool_obs sts base hlen2 hnodes hedges

/-- Zero prints and reads back exactly. -/
lemma fmt6_zero : fmt6 0 = 0 := by
  unfold fmt6
  rw [if_pos rfl]

/-- The 7-digit value 0.1234567 rounds to 0.123457 at output precision. -/
lemma fmt6_c9 : fmt6 (1234567/10000000 : ℚ) = 123457/1000000 := by
  unfold fmt6
  rw [if_neg (by norm_num)]
  dsimp only
  rw [abs_of_pos (by norm_num : (0:ℚ) < 1234567/10000000)]
  rw [show ilog10 ((1234567:ℚ)/10000000) = -1 from by
    unfold ilog10
    rw [if_neg (by norm_num)]
    rw [show (⌈1 / ((1234567:ℚ)/10000000)⌉ : ℤ) = 9 from by
      rw [Int.ceil_eq_iff]
      norm_num]
    rw [show Int.toNat 9 = 9 from rfl]
    norm_num [Nat.log_eq_zero_iff]]
  rw [if_neg (by norm_num)]
  rw [show ((5:ℤ) - (-1)) = 6 from by norm_num]
  rw [show ((10:ℚ) ^ (6:ℤ)) = 1000000 from by norm_num]
  rw [show (⌊(1234567:ℚ)/10000000 * 1000000 + 1/2⌋ : ℤ) = 123457 from by
    rw [Int.floor_eq_iff]
    norm_num]
  norm_num

/-- The flag pass is the identity on the counterexample keyframe (its flags
are already correct). -/
lemma c9_built_eq : set_bool_values c9_base = c9_base := by
  simp [set_bool_values, c9_base, flag_state, List.range_succ]

/-- C9 counterexample: serializing a built graph whose node sits at
x = 0.1234567 and parsing it back yields x = 0.123457 — the 6-significant-digit
default float output of `operator<<` loses the seventh digit, so the
round-tripped states are not identical to the original's. -/
theorem c9_roundtrip_counterexample :
    parseDG (serializeDG (set_bool_values c9_base)) =
      .ok [{ nodes := [{ id := 7, pos := ⟨123457/1000000, 0⟩ }], edges := [],
             index := [(7, [])] }] ∧
    (set_bool_values c9_base).map state_obs ≠
      ([{ nodes := [{ id := 7, pos := ⟨123457/1000000, 0⟩ }], edges := [],
          index := [(7, [])] }] : List GraphState).map state_obs := by
  constructor
  · rw [c9_built_eq]
    rw [show serializeDG c9_base =
        [{ nodes := [⟨7, 123457/1000000, 0⟩], edges := [] }] from by
      simp [serializeDG, serialize_state, c9_base, fmt6_c9, fmt6_zero]]
    unfold parseDG
    rw [List.mapM_cons, List.mapM_nil]
    rw [show parse_state { nodes := [⟨7, 123457/1000000, 0⟩], edges := [] } =
        .ok { nodes := [{ id := 7, pos := ⟨123457/1000000, 0⟩ }], edges := [],
              index := [(7, [])] } from by
      simp [parse_state, push_node, node_exists, List.foldlM, pure, Except.pure]]
    simp [Bind.bind, Except.bind, pure, Except.pure, set_bool_values, flag_state,
      List.range_succ, node_exists]
  · rw [c9_built_eq]
    simp [c9_base, state_obs, node_obs]
    norm_num

/-- Witness for the amended C9: one keyframe, two nodes at the default origin
(exactly representable) joined by an edge; the round trip reproduces the
observables. -/
theorem c9_roundtrip_amended_witness :
    ∃ out, parseDG (serializeDG (set_bool_values c9w_base)) = .ok out ∧
      out.map state_obs = (set_bool_values c9w_base).map state_obs :=
  c9_roundtrip_amended c9w_base (by decide) (by decide) (by decide)
    (by
      intro st hst n hn
      simp only [c9w_base, List.mem_singleton] at hst
      subst hst
      have hx : n.pos = ⟨0, 0⟩ := by
        simp at hn
        rcases hn with rfl | rfl <;> rfl
      rw [hx]
      exact ⟨fmt6_zero, fmt6_zero⟩)

end Dyng
